import Mathlib

/-!
Verification of the reconciliation core of the `obsidian-fmod-sync` plugin.

The definitions below are a shallow embedding, function by function, of the
TypeScript sources: `src/utils/filename.ts`, the frontmatter codec and
generator bundled in `src/markdown/generator.ts`, and the sync engine in
`src/sync/engine.ts` (which bundles the event processor).  JavaScript strings
are modelled as Lean `String` (sequences of code points; UTF-16 surrogate
corners and Unicode whitespace beyond the listed set are outside the model).
JavaScript objects and Maps used as string-keyed records are modelled as
association lists updated in place (insertion order; exact for non-numeric
keys, which is the only kind the sync produces or the claims quantify over).
-/

namespace FmodSync

/-! ## JavaScript string primitives -/

/-- Whitespace characters recognised by the JavaScript regular-expression
class `\s` and by `String.prototype.trim` (the ASCII set plus NBSP and BOM). -/
def jsWs (c : Char) : Bool :=
  c == ' ' || c == '\t' || c == '\n' || c == '\r' ||
  c == Char.ofNat 11 || c == Char.ofNat 12 ||
  c == Char.ofNat 0xa0 || c == Char.ofNat 0xfeff

/-- Drop leading JS whitespace. -/
def trimLeftL (cs : List Char) : List Char := cs.dropWhile jsWs

/-- Drop trailing JS whitespace. -/
def trimRightL (cs : List Char) : List Char := (cs.reverse.dropWhile jsWs).reverse

/-- JS `String.prototype.trim` on a character list. -/
def trimL (cs : List Char) : List Char := trimRightL (trimLeftL cs)

/-- JS `String.prototype.trim`. -/
def jsTrim (s : String) : String := ⟨trimL s.data⟩

/-- JS `a.startsWith(pat)` on character lists. -/
def startsWithL (cs pat : List Char) : Bool := pat.isPrefixOf cs

/-- JS `a.endsWith(pat)` on character lists. -/
def endsWithL (cs pat : List Char) : Bool := pat.isSuffixOf cs

/-- JS `s.indexOf(pat, i)` scanning from position `i` of the remaining list
`l`; returns the absolute index of the first occurrence. -/
def indexOfAux (pat : List Char) : List Char → Nat → Option Nat
  | [], i => if pat.isPrefixOf ([] : List Char) then some i else none
  | c :: t, i => if pat.isPrefixOf (c :: t) then some i else indexOfAux pat t (i + 1)

/-- JS `s.indexOf(pat, start)` (character indices, `none` for -1). -/
def indexOfFrom (cs pat : List Char) (start : Nat) : Option Nat :=
  indexOfAux pat (cs.drop start) start

/-- JS `String.prototype.substring(a, b)`: clamps to the length and swaps the
bounds when `a > b`. -/
def jsSubstringL (cs : List Char) (a b : Nat) : List Char :=
  (cs.take (max a b)).drop (min a b)

/-- JS global single-character replacement (`s.split(c).join(r)` or a global
regex on one character): every occurrence of `c` becomes the list `r`. -/
def replaceCharWithL (c : Char) (r : List Char) : List Char → List Char
  | [] => []
  | a :: t => (if a = c then r else [a]) ++ replaceCharWithL c r t

/-- JS first-occurrence `s.replace(pat, repl)` for a plain string pattern. -/
def replaceFirstL (pat repl cs : List Char) : List Char :=
  match indexOfFrom cs pat 0 with
  | some i => cs.take i ++ repl ++ cs.drop (i + pat.length)
  | none => cs

/-- Worker for `collapseRuns`: `inRun` records whether the previous character
belonged to the run currently being replaced. -/
def collapseRunsGo (p : Char → Bool) (r : Char) : Bool → List Char → List Char
  | _, [] => []
  | inRun, c :: cs =>
    if p c then (if inRun then collapseRunsGo p r true cs else r :: collapseRunsGo p r true cs)
    else c :: collapseRunsGo p r false cs

/-- JS regex replacement of every maximal run of characters satisfying `p`
with the single character `r` (used for `\s+` → `_` and `-+` → `-`). -/
def collapseRuns (p : Char → Bool) (r : Char) (cs : List Char) : List Char :=
  collapseRunsGo p r false cs

/-- JS `s.replace(/^-|-$/g, "")`: one leading and one trailing hyphen are
removed when present. -/
def stripEdgeHyphens (cs : List Char) : List Char :=
  let a := if cs.head? = some '-' then cs.tail else cs
  if a.getLast? = some '-' then a.dropLast else a

/-- Lexicographic comparison of strings by code unit, as the default
JS `Array.prototype.sort` comparator (identical to code-point order on the
strings this program produces). -/
def strLtL : List Char → List Char → Bool
  | [], [] => false
  | [], _ :: _ => true
  | _ :: _, [] => false
  | a :: as, b :: bs => if a = b then strLtL as bs else decide (a < b)

/-- Insertion step for the key sort in `generateMarkdown`. -/
def insertStr (x : String) : List String → List String
  | [] => [x]
  | y :: ys => if strLtL x.data y.data then x :: y :: ys else y :: insertStr x ys

/-- JS `Array.prototype.sort()` on string keys (stable; keys are distinct). -/
def sortStrs : List String → List String
  | [] => []
  | x :: xs => insertStr x (sortStrs xs)

/-! ## JavaScript records as association lists -/

/-- JS object property assignment `obj[k] = v`: overwrite in place when the
key exists, otherwise append (insertion order preserved). `Map.prototype.set`
has the same observable behaviour for `get`. -/
def setAssoc {α : Type} (m : List (String × α)) (k : String) (v : α) : List (String × α) :=
  if m.any (fun p => p.1 == k) then m.map (fun p => if p.1 == k then (k, v) else p)
  else m ++ [(k, v)]

/-- JS property read `obj[k]` / `Map.prototype.get`. -/
def getAssoc {α : Type} (m : List (String × α)) (k : String) : Option α :=
  (m.find? (fun p => p.1 == k)).map (fun p => p.2)

/-! ## Filename sanitizer (src/utils/filename.ts) -/

/-- Characters replaced by the sanitizer (filename.ts line 9). -/
def badChars : List Char := ['<', '>', ':', '/', '|', '?', '*', '"', '\\']

/-- Modelled from the spec: `MAX_FILENAME_LENGTH` is imported from
`src/constants.ts`, which is not among the provided sources.  The spec says
filenames are truncated to a maximum length with an ellipsis tail; the
concrete bound is taken to be 100 characters. -/
def MAX_FILENAME_LENGTH : Nat := 100

/-- Embedding of `sanitizeFilename` (filename.ts lines 7-23): replace each
reserved character with a hyphen, collapse whitespace runs to `_`, collapse
hyphen runs, strip edge hyphens, and truncate with an ellipsis tail. -/
def sanitizeFilename (name : String) : String :=
  let r1 := badChars.foldl (fun acc c => replaceCharWithL c ['-'] acc) name.data
  let r2 := collapseRuns jsWs '_' r1
  let r3 := collapseRuns (fun c => c == '-') '-' r2
  let r4 := stripEdgeHyphens r3
  if r4.length > MAX_FILENAME_LENGTH
  then ⟨r4.take (MAX_FILENAME_LENGTH - 3) ++ ['.', '.', '.']⟩
  else ⟨r4⟩


/-! ## Frontmatter codec (frontmatter.ts, bundled in src/markdown/generator.ts) -/

/-- Property values: an inline scalar or a block list of items. -/
inductive YamlVal where
  | str (s : String)
  | list (l : List String)
deriving DecidableEq, Repr

/-- Result of `parseFrontmatter`. -/
structure ParsedFrontmatter where
  properties : List (String × YamlVal)
  bodyStart : Nat
deriving DecidableEq, Repr

/-- Quote stripping applied to inline scalar values (frontmatter.ts lines
199-205): symmetric double or single quotes of a value longer than one
character are removed (escapes inside are NOT undone). -/
def stripQuotes (v : List Char) : List Char :=
  if v.length > 1 ∧
      ((v.head? = some '"' ∧ v.getLast? = some '"') ∨
       (v.head? = some (Char.ofNat 39) ∧ v.getLast? = some (Char.ofNat 39)))
  then (v.drop 1).dropLast
  else v

/-- Mutable state of the parsing loop in `parseFrontmatter`. -/
structure ParseSt where
  props : List (String × YamlVal)
  currentKey : Option String
  arrayValues : List String
  inArray : Bool
deriving Repr

/-- Flush of a pending list value (frontmatter.ts lines 186-188 and 211-214):
`if (inArray && currentKey && arrayValues.length > 0)`. A parsed key is never
the empty string (the colon index is positive and keys are trimmed in place),
so JS truthiness of `currentKey` coincides with `isSome`. -/
def flushArray (st : ParseSt) : List (String × YamlVal) :=
  if st.inArray then
    match st.currentKey with
    | some k => if st.arrayValues ≠ [] then setAssoc st.props k (.list st.arrayValues) else st.props
    | none => st.props
  else st.props

/-- One iteration of the line loop of `parseFrontmatter` (frontmatter.ts
lines 169-209). -/
def parseLine (st : ParseSt) (line : List Char) : ParseSt :=
  let t := trimL line
  if t = [] then st
  else if startsWithL t ['#'] then st
  else if startsWithL t ['-', ' '] then
    if st.inArray ∧ st.currentKey.isSome
    then { st with arrayValues := st.arrayValues ++ [⟨trimL (t.drop 2)⟩] }
    else st
  else
    match t.findIdx? (fun c => c == ':') with
    | some ci =>
      if ci > 0 then
        let flushed := flushArray st
        let key : String := ⟨trimL (t.take ci)⟩
        let val : List Char := trimL (t.drop (ci + 1))
        if val = [] ∨ val = ['|'] ∨ val = ['>'] then
          { props := flushed, currentKey := some key, arrayValues := [], inArray := true }
        else
          { props := setAssoc flushed key (.str ⟨stripQuotes val⟩),
            currentKey := some key, arrayValues := st.arrayValues, inArray := false }
      else st
    | none => st

/-- Embedding of `parseFrontmatter` (frontmatter.ts lines 149-217). -/
def parseFrontmatter (content : String) : ParsedFrontmatter :=
  let cs := content.data
  if ¬ startsWithL cs ['-', '-', '-'] then ⟨[], 0⟩
  else
    match indexOfFrom cs ['\n', '-', '-', '-'] 3 with
    | none => ⟨[], 0⟩
    | some endMatch =>
      let yamlBlock := jsSubstringL cs 4 endMatch
      let lines := yamlBlock.splitOn '\n'
      let st := lines.foldl parseLine ⟨[], none, [], false⟩
      ⟨flushArray st, endMatch + 4⟩

/-- Embedding of `yamlEscape` (frontmatter.ts lines 222-249): wrap in double
quotes, escaping backslashes and double quotes, whenever the value contains a
YAML-significant character, has leading or trailing whitespace, or is empty.
(The `null`/`undefined` guard and `String(val)` coercion are identities on
the string inputs modelled here.) -/
def yamlEscape (val : String) : String :=
  let s := val.data
  if s.contains ':' || s.contains '#' || s.contains (Char.ofNat 39) || s.contains '"' ||
     s.contains '{' || s.contains '}' || s.contains '[' || s.contains ']' ||
     s.contains '&' || s.contains '*' || s.contains '!' || s.contains '|' ||
     s.contains '>' || s.contains '%' || s.contains '@' || s.contains (Char.ofNat 96) ||
     trimL s != s || s.isEmpty
  then ⟨'"' :: (replaceCharWithL '"' ['\\', '"'] (replaceCharWithL '\\' ['\\', '\\'] s) ++ ['"'])⟩
  else val

/-- Embedding of `formatYamlProperty` (frontmatter.ts lines 254-263). -/
def formatYamlProperty (key : String) (value : YamlVal) : String :=
  match value with
  | .list l => key ++ ":\n" ++ String.join (l.map (fun item => "  - " ++ yamlEscape item ++ "\n"))
  | .str s => key ++ ": " ++ yamlEscape s ++ "\n"

/-- Header assembly as `generateMarkdown` performs it (generator.ts lines 69,
88-104): marker line, one formatted property per entry, closing marker and a
blank line.  This is the `format_header` of the spec's round-trip property. -/
def formatHeader (props : List (String × YamlVal)) : String :=
  "---\n" ++ String.join (props.map (fun p => formatYamlProperty p.1 p.2)) ++ "---\n\n"


/-! ## Section merger (extractUserSections, frontmatter.ts lines 269-306) -/

/-- Headings whose sections are machine-managed (frontmatter.ts line 279). -/
def managedSections : List String := ["parameters", "notes", "user properties"]

/-- JS `String.prototype.toLowerCase` (ASCII-faithful). -/
def toLowerStr (s : String) : String := ⟨s.data.map Char.toLower⟩

/-- Loop state of `extractUserSections`. -/
structure SectSt where
  sections : List (String × String)
  currentSection : Option String
  currentContent : List String
deriving Repr

/-- Flush of the section being accumulated (frontmatter.ts lines 283-289 and
297-303): a section is recorded when its (truthy, i.e. non-empty) heading is
not in the managed set; its content lines are joined and trimmed. -/
def flushSection (st : SectSt) : List (String × String) :=
  match st.currentSection with
  | some s =>
    if s ≠ "" ∧ ¬ managedSections.contains (toLowerStr s)
    then setAssoc st.sections s (jsTrim (String.intercalate "\n" st.currentContent))
    else st.sections
  | none => st.sections

/-- One iteration of the line loop of `extractUserSections`. -/
def sectionLine (st : SectSt) (line : List Char) : SectSt :=
  if startsWithL line ['#', '#', ' '] then
    { sections := flushSection st,
      currentSection := some ⟨trimL (line.drop 3)⟩,
      currentContent := [] }
  else if (st.currentSection.getD "") ≠ "" then
    { st with currentContent := st.currentContent ++ [⟨line⟩] }
  else st

/-- Embedding of `extractUserSections` (frontmatter.ts lines 269-306). -/
def extractUserSections (content : String) (bodyStart : Nat) : List (String × String) :=
  let body := content.data.drop bodyStart
  let lines := body.splitOn '\n'
  flushSection (lines.foldl sectionLine ⟨[], none, []⟩)


/-! ## Data model (src/types.ts) -/

/-- One typed event parameter.  The numeric bounds (`number | string` in the
source) are modelled by their string rendering, which is all the generator
uses (`String(value)` in the table row). -/
structure FMODParameter where
  name : String
  type : String
  min : String
  max : String
  initial : String
deriving DecidableEq, Repr

/-- One user-defined key/value/type triple (`value` likewise modelled by its
string rendering). -/
structure FMODUserProperty where
  name : String
  type : String
  value : String
deriving DecidableEq, Repr

/-- One incoming record of the export batch (`FMODEvent` in types.ts;
`max_voices : number | string` modelled by its string rendering). -/
structure FMODEvent where
  name : String
  guid : String
  full_path : String
  folder_path : String
  banks : List String
  loop_type : String
  space : String
  max_voices : String
  notes : String
  parameters : List FMODParameter
  user_properties : List FMODUserProperty
deriving DecidableEq, Repr

/-- Run counters (types.ts `SyncStats`). -/
structure SyncStats where
  created : Nat
  updated : Nat
  moved : Nat
  skipped : Nat
  errors : Nat
deriving DecidableEq, Repr

/-- Skip record (types.ts `SkipReason`). -/
structure SkipReason where
  event : String
  reason : String
deriving DecidableEq, Repr

/-! ## Markdown generator (src/markdown/generator.ts) -/

/-- Machine-owned property keys (generator.ts lines 25-37). -/
def fmodProperties : List String :=
  ["status", "guid", "project", "banks", "folder_path", "full_path",
   "loop_type", "space", "max_voices", "parameters", "last_synced"]

/-- Emission order of the machine-owned keys (generator.ts lines 72-84; the
source repeats the same literal list). -/
def orderedKeys : List String :=
  ["status", "guid", "project", "banks", "folder_path", "full_path",
   "loop_type", "space", "max_voices", "parameters", "last_synced"]

/-- Merged property map of `generateMarkdown` (generator.ts lines 40-66):
existing user-owned properties in their original order, then the
machine-owned values. -/
def mergedPropsOf (event : FMODEvent) (existingProps : List (String × YamlVal))
    (exportedAt projectName : String) : List (String × YamlVal) :=
  let m0 := existingProps.foldl
    (fun m p => if fmodProperties.contains p.1 then m else setAssoc m p.1 p.2) []
  let m1 := setAssoc m0 "status" (.str "exists")
  let m2 := setAssoc m1 "guid" (.str event.guid)
  let m3 := setAssoc m2 "project" (.str projectName)
  let m4 := if event.banks.length > 0 then setAssoc m3 "banks" (.list event.banks) else m3
  let m5 := setAssoc m4 "folder_path" (.str event.folder_path)
  let m6 := setAssoc m5 "full_path" (.str event.full_path)
  let m7 := setAssoc m6 "loop_type" (.str event.loop_type)
  let m8 := setAssoc m7 "space" (.str event.space)
  let m9 := if event.max_voices ≠ "" then setAssoc m8 "max_voices" (.str event.max_voices) else m8
  let m10 := if event.parameters.length > 0
    then setAssoc m9 "parameters" (.list (event.parameters.map (fun p => p.name))) else m9
  setAssoc m10 "last_synced" (.str exportedAt)

/-- Truthiness-style guard of the ordered-key emission loop (generator.ts
line 89): the value must exist and not be the empty string. -/
def emittable (v : Option YamlVal) : Bool :=
  match v with
  | some (.str s) => s ≠ ""
  | some (.list _) => true
  | none => false

/-- Body of the Parameters section (generator.ts lines 110-118). -/
def paramsSection (event : FMODEvent) : String :=
  if event.parameters.length > 0 then
    "## Parameters\n| Name | Type | Min | Max | Initial |\n|------|------|-----|-----|--------|\n" ++
    String.join (event.parameters.map (fun p =>
      "| " ++ p.name ++ " | " ++ p.type ++ " | " ++ p.min ++ " | " ++ p.max ++ " | " ++
      p.initial ++ " |\n")) ++ "\n"
  else ""

/-- Body of the User Properties section (generator.ts lines 125-134). -/
def userPropsSection (event : FMODEvent) : String :=
  if event.user_properties.length > 0 then
    "## User Properties\n" ++
    String.join (event.user_properties.map (fun p =>
      "- " ++ p.name ++ (if p.type ≠ "" then " (" ++ p.type ++ ")" else "") ++
      (if p.value ≠ "" then " = " ++ p.value else "") ++ "\n")) ++ "\n"
  else ""

/-- One preserved user section block (generator.ts lines 137-140). -/
def sectionBlock (sect : String × String) : String :=
  "## " ++ sect.1 ++ "\n" ++ sect.2 ++ "\n\n"

/-- Embedding of `generateMarkdown` (generator.ts lines 8-143). -/
def generateMarkdown (event : FMODEvent) (existingContent : Option String)
    (exportedAt projectName : String) : String :=
  let existing := match existingContent with
    | some c => parseFrontmatter c
    | none => ⟨[], 0⟩
  let userSections := match existingContent with
    | some c => extractUserSections c existing.bodyStart
    | none => []
  let mergedProps := mergedPropsOf event existing.properties exportedAt projectName
  let fmodYaml := String.join (orderedKeys.map (fun k =>
    if emittable (getAssoc mergedProps k)
    then formatYamlProperty k ((getAssoc mergedProps k).getD (.str ""))
    else ""))
  let usedKeys := orderedKeys.filter (fun k => emittable (getAssoc mergedProps k))
  let remainingKeys := sortStrs ((mergedProps.map (fun p => p.1)).filter
    (fun k => ¬ usedKeys.contains k))
  let userYaml := String.join (remainingKeys.map (fun k =>
    formatYamlProperty k ((getAssoc mergedProps k).getD (.str ""))))
  let yaml := "---\n" ++ fmodYaml ++ userYaml ++ "---\n\n"
  let notesSection := "## Notes\n" ++ event.notes ++ "\n\n"
  yaml ++ "# " ++ event.name ++ "\n\n" ++ paramsSection event ++ notesSection ++
    userPropsSection event ++ String.join (userSections.map sectionBlock)

/-- Everything `generateMarkdown` emits before the managed Notes section
(header, title and Parameters table), named so the placement of the Notes
section and of the preserved user sections can be stated; proved equal to
the corresponding slice of `generateMarkdown` in the C4 theorem. -/
def mdPreamble (event : FMODEvent) (existingProps : List (String × YamlVal))
    (exportedAt projectName : String) : String :=
  let mergedProps := mergedPropsOf event existingProps exportedAt projectName
  let fmodYaml := String.join (orderedKeys.map (fun k =>
    if emittable (getAssoc mergedProps k)
    then formatYamlProperty k ((getAssoc mergedProps k).getD (.str ""))
    else ""))
  let usedKeys := orderedKeys.filter (fun k => emittable (getAssoc mergedProps k))
  let remainingKeys := sortStrs ((mergedProps.map (fun p => p.1)).filter
    (fun k => ¬ usedKeys.contains k))
  let userYaml := String.join (remainingKeys.map (fun k =>
    formatYamlProperty k ((getAssoc mergedProps k).getD (.str ""))))
  let yaml := "---\n" ++ fmodYaml ++ userYaml ++ "---\n\n"
  yaml ++ "# " ++ event.name ++ "\n\n" ++ paramsSection event

/-! ## Sync engine (src/sync/engine.ts, bundling the event processor) -/

/-- Reference to an existing note held in the run's indexes. -/
structure NoteRef where
  path : String
  content : String
deriving DecidableEq, Repr

/-- Filesystem effect on documents (vault calls in processor.ts; folder
creation touches no document and is not traced). -/
inductive FsOp where
  | create (path text : String)
  | modify (path text : String)
  | delete (path : String)
deriving DecidableEq, Repr

/-- Outcome of processing one event. -/
structure ProcResult where
  ops : List FsOp
  stats : SyncStats
  skipped : List SkipReason
deriving DecidableEq, Repr

/-- Obsidian's `normalizePath` is host-API code outside this repository; the
paths assembled here are already slash-normalized, so it is modelled as the
identity. -/
def normalizePath (p : String) : String := p

/-- JS `path.split("/").pop()` with the `|| ""` fallback. -/
def lastSegmentL (cs : List Char) : List Char := (cs.splitOn '/').getLastD []

/-- Embedding of the index construction in `syncSingleProject` (engine.ts
lines 99-108).  The identifier key looked up is `"fmod_guid"`, exactly as in
the source (the generator writes `"guid"`).  A list-valued property is truthy
in JS but its Map key can never equal a string lookup key, so such entries
are omitted from the string-keyed model. -/
def buildIndexes (existingNotes : List (String × String)) :
    List (String × NoteRef) × List (String × NoteRef) :=
  existingNotes.foldl (fun acc note =>
    let fm := parseFrontmatter note.2
    let filename : String := ⟨replaceFirstL ['.', 'm', 'd'] [] (lastSegmentL note.1.data)⟩
    let byGuid := match getAssoc fm.properties "fmod_guid" with
      | some (.str s) => if s ≠ "" then setAssoc acc.1 s ⟨note.1, note.2⟩ else acc.1
      | _ => acc.1
    (byGuid, setAssoc acc.2 filename ⟨note.1, note.2⟩)) ([], [])

/-- Target path computation of `processEvent` (processor.ts lines 303-315). -/
def targetPathOf (event : FMODEvent) (outputPath : String) : String :=
  let sanitizedName := sanitizeFilename event.name
  if event.folder_path ≠ "" then
    let sanitizedFolder := String.intercalate "/"
      ((event.folder_path.data.splitOn '/').map (fun s => sanitizeFilename ⟨s⟩))
    normalizePath (outputPath ++ "/" ++ sanitizedFolder ++ "/" ++ sanitizedName ++ ".md")
  else
    normalizePath (outputPath ++ "/" ++ sanitizedName ++ ".md")

/-- JS template-literal rendering of the conflicting identifier in the skip
reason: a string renders as itself, an array joins its elements with commas. -/
def jsToString (v : YamlVal) : String :=
  match v with
  | .str s => s
  | .list l => String.intercalate "," l

/-- Truthiness of the `guid` property read in the name-match branch
(processor.ts line 336): `undefined` and the empty string are falsy, any
list is truthy. -/
def truthyVal (v : Option YamlVal) : Bool :=
  match v with
  | none => false
  | some (.str s) => s ≠ ""
  | some (.list _) => true

/-- Write phase of `processEvent` (processor.ts lines 366-385): on a move the
old file is deleted first (when present in the vault), then the new file is
created at the target path; otherwise the target is modified when it exists
and created when it does not. -/
def writePhase (targetPath markdown : String) (vaultPaths : List String)
    (existingPath : Option String) (needsMove : Bool)
    (stats : SyncStats) (skipped : List SkipReason) : ProcResult :=
  match existingPath, needsMove with
  | some p, true =>
    if p ≠ "" then
      ⟨(if vaultPaths.contains p then [FsOp.delete p] else []) ++
        [FsOp.create targetPath markdown],
       { stats with moved := stats.moved + 1 }, skipped⟩
    else if vaultPaths.contains targetPath then
      ⟨[FsOp.modify targetPath markdown], { stats with updated := stats.updated + 1 }, skipped⟩
    else
      ⟨[FsOp.create targetPath markdown], { stats with created := stats.created + 1 }, skipped⟩
  | _, _ =>
    if vaultPaths.contains targetPath then
      ⟨[FsOp.modify targetPath markdown], { stats with updated := stats.updated + 1 }, skipped⟩
    else
      ⟨[FsOp.create targetPath markdown], { stats with created := stats.created + 1 }, skipped⟩

/-- Embedding of `processEvent` (processor.ts lines 292-386).  Vault file
existence (`getAbstractFileByPath` returning a `TFile`) is modelled by
membership in `vaultPaths`. -/
def processEvent (event : FMODEvent) (outputPath : String)
    (notesByGuid notesByName : List (String × NoteRef))
    (vaultPaths : List String) (exportedAt projectName : String)
    (stats : SyncStats) (skipped : List SkipReason) : ProcResult :=
  let sanitizedName := sanitizeFilename event.name
  let targetPath := targetPathOf event outputPath
  match getAssoc notesByGuid event.guid with
  | some ref =>
    writePhase targetPath (generateMarkdown event (some ref.content) exportedAt projectName)
      vaultPaths (some ref.path) (ref.path ≠ targetPath) stats skipped
  | none =>
    match getAssoc notesByName sanitizedName with
    | some ref =>
      let existingGuid := getAssoc (parseFrontmatter ref.content).properties "guid"
      if ¬ truthyVal existingGuid then
        writePhase targetPath (generateMarkdown event (some ref.content) exportedAt projectName)
          vaultPaths (some ref.path) (ref.path ≠ targetPath) stats skipped
      else if existingGuid ≠ some (.str event.guid) then
        ⟨[], { stats with skipped := stats.skipped + 1 },
         skipped ++ [⟨event.name,
           "Name collision: existing note has different GUID (" ++
             jsToString ((existingGuid).getD (.str "")) ++ ")"⟩]⟩
      else
        writePhase targetPath (generateMarkdown event none exportedAt projectName)
          vaultPaths none false stats skipped
    | none =>
      writePhase targetPath (generateMarkdown event none exportedAt projectName)
        vaultPaths none false stats skipped

/-! ## Sync driver (syncSingleProject, engine.ts lines 88-152) -/

/-- State threaded through one run. -/
structure RunState where
  stats : SyncStats
  skipped : List SkipReason
  ops : List FsOp
  vault : List (String × String)
deriving DecidableEq, Repr

/-- Application of one filesystem effect to the vault (path / content list). -/
def applyOp (vault : List (String × String)) : FsOp → List (String × String)
  | .create p t => vault ++ [(p, t)]
  | .modify p t => vault.map (fun e => if e.1 = p then (p, t) else e)
  | .delete p => vault.filter (fun e => e.1 ≠ p)

/-- Application of a trace of effects. -/
def applyOps (vault : List (String × String)) (ops : List FsOp) : List (String × String) :=
  ops.foldl applyOp vault

/-- Scan of the existing corpus (`scanExistingNotes`, processor.ts lines
266-287): the markdown files strictly inside the output folder. -/
def scanNotes (vault : List (String × String)) (basePath : String) :
    List (String × String) :=
  vault.filter (fun e =>
    startsWithL e.1.data (basePath.data ++ ['/']) ∧ endsWithL e.1.data ['.', 'm', 'd'])

/-- Embedding of the per-run driver of `syncSingleProject` (engine.ts lines
88-149): one index construction, then the event loop whose body is guarded by
try/catch (`stats.errors++` and continue on a raised exception).  `throws`
is the oracle for events whose processing raises an I/O exception; a raised
event contributes no filesystem effect (the model places the fault before
the first write).  This is one iteration of the loop (engine.ts lines
122-149). -/
def syncStep (outputPath : String)
    (idx : List (String × NoteRef) × List (String × NoteRef))
    (exportedAt projectName : String) (throws : FMODEvent → Bool)
    (rs : RunState) (event : FMODEvent) : RunState :=
  if throws event then
    { rs with stats := { rs.stats with errors := rs.stats.errors + 1 } }
  else
    let r := processEvent event outputPath idx.1 idx.2 (rs.vault.map (fun e => e.1))
      exportedAt projectName rs.stats rs.skipped
    { stats := r.stats, skipped := r.skipped,
      ops := rs.ops ++ r.ops, vault := applyOps rs.vault r.ops }

/-- Embedding of the per-run driver of `syncSingleProject` (engine.ts lines
88-149): the indexes are built once, then the events are folded through
`syncStep`. -/
def runSync (events : List FMODEvent) (outputPath : String)
    (vault0 : List (String × String)) (exportedAt projectName : String)
    (throws : FMODEvent → Bool) : RunState :=
  let idx := buildIndexes (scanNotes vault0 outputPath)
  events.foldl (syncStep outputPath idx exportedAt projectName throws)
    ⟨⟨0, 0, 0, 0, 0⟩, [], [], vault0⟩

/-! ## Shared helpers for the claim theorems -/

/-- JS `s.includes(pat)` (substring containment). -/
def containsSubstr (s pat : String) : Bool := (indexOfFrom s.data pat.data 0).isSome

/-- First index of a create at the given path in an effect trace. -/
def isCreateAt (p : String) : FsOp → Bool
  | .create q _ => q == p
  | _ => false

/-- First index of a delete at the given path in an effect trace. -/
def isDeleteAt (p : String) : FsOp → Bool
  | .delete q => q == p
  | _ => false

/-- Whether the trace creates the target before deleting the old path (both
effects must be present). -/
def writeBeforeRemove (ops : List FsOp) (tgt old : String) : Bool :=
  match ops.findIdx? (isCreateAt tgt), ops.findIdx? (isDeleteAt old) with
  | some i, some j => decide (i < j)
  | _, _ => false

/-- No two adjacent characters of the list both satisfy `p` (the shape of
sanitizer output used by the idempotence proof). -/
def noRun (p : Char → Bool) : List Char → Bool
  | [] => true
  | [_] => true
  | a :: b :: t => (!(p a && p b)) && noRun p (b :: t)

/-! ## Claim scenarios (concrete inputs referenced by the theorems) -/

/-- Move scenario for C2: an existing note carrying `fmod_guid` (so the
byGuid index finds it) whose target path changed. -/
def c2Doc : String := "---\nfmod_guid: g1\n---\nold"

/-- Record of the C2 scenario, now located under folder `Sub`. -/
def c2Event : FMODEvent := ⟨"E", "g1", "", "Sub", [], "", "", "", "n", [], []⟩

/-- One run of the C2 move scenario. -/
def c2Run : RunState :=
  runSync [c2Event] "Events" [("Events/Old.md", c2Doc)] "t" "P" (fun _ => false)

/-- Record of the C1 scenario as first synced. -/
def c1Event : FMODEvent := ⟨"E", "g1", "", "", [], "", "", "", "n", [], []⟩

/-- Document created for `c1Event` by a previous sync run (its header carries
`guid: g1`). -/
def c1PrevDoc : String := generateMarkdown c1Event none "t" "P"

/-- The same record after its display name changed. -/
def c1Renamed : FMODEvent := { c1Event with name := "E v2" }

/-- Indexes of the later run built over the previously created document. -/
def c1Idx : List (String × NoteRef) × List (String × NoteRef) :=
  buildIndexes [("Events/E.md", c1PrevDoc)]

/-- Outcome of the later run on the renamed record. -/
def c1Res : ProcResult :=
  processEvent c1Renamed "Events" c1Idx.1 c1Idx.2 ["Events/E.md"] "t" "P"
    ⟨0, 0, 0, 0, 0⟩ []

/-- Record of the C6 scenario. -/
def c6Event : FMODEvent := ⟨"E", "g1", "", "", [], "", "", "", "n", [], []⟩

/-- First run: the record claims an unclaimed hand-written document that has
a user-authored section. -/
def c6Run1 : RunState :=
  runSync [c6Event] "Events" [("Events/E.md", "## Design\nkeep")] "t" "P" (fun _ => false)

/-- Second run on the unchanged record set and the untouched corpus left by
the first run. -/
def c6Run2 : RunState :=
  runSync [c6Event] "Events" c6Run1.vault "t" "P" (fun _ => false)

/-- Edge characters (if any) are not whitespace. -/
def edgeOkL (cs : List Char) : Bool :=
  (match cs.head? with | some c => !(jsWs c) | none => true) &&
  (match cs.getLast? with | some c => !(jsWs c) | none => true)

/-- Goodness of a property key for the round-trip statement (C5): non-empty
with non-whitespace edges (so the in-place trims are identities), free of
colon and newline, and not opening like a comment, a list item, or a marker
line. -/
def goodKey (k : String) : Bool :=
  !(k.data.isEmpty) && edgeOkL k.data &&
  !(k.data.contains ':') && !(k.data.contains '\n') &&
  !(startsWithL k.data ['#']) && !(startsWithL k.data ['-', ' ']) &&
  !(startsWithL k.data ['-', '-', '-'])

/-- Goodness of a scalar value: free of double quote, backslash and newline,
so that quote-stripping inverts the escaping exactly. -/
def goodScalar (s : String) : Bool :=
  !(s.data.contains '"') && !(s.data.contains '\\') && !(s.data.contains '\n')

/-- Goodness of a list element: the escaper leaves it untouched (the parser
never unquotes list items) and it contains no newline. -/
def goodElem (e : String) : Bool :=
  yamlEscape e == e && !(e.data.contains '\n')

/-- Goodness of a property value: a good scalar, or a non-empty list of good
elements. -/
def goodVal : YamlVal → Bool
  | .str s => goodScalar s
  | .list l => !(l.isEmpty) && l.all goodElem

/-- Lines contributed to the header block by one property
(`formatYamlProperty` without the newline terminators). -/
def propLines (p : String × YamlVal) : List (List Char) :=
  match p.2 with
  | .str s => [(p.1 ++ ": " ++ yamlEscape s).data]
  | .list l => (p.1 ++ ":").data :: l.map (fun e => ("  - " ++ yamlEscape e).data)

/-- Concatenation of newline-terminated lines. -/
def unlines (L : List (List Char)) : List Char :=
  (L.map (fun l => l ++ ['\n'])).flatten

/-- Record of the C4 scenario. -/
def c4Event : FMODEvent := ⟨"E", "g", "", "", [], "", "", "", "n", [], []⟩

/-- Document of the C4 scenario: a user-authored section whose text begins
with indentation, followed by a managed Notes section. -/
def c4Doc : String := "## Design Rationale\n    indented\n## Notes\nold"

/-- Property map of the C5 counterexample: a scalar value that is one double
quote, which the escaper backslash-escapes and the parser never unescapes. -/
def c5Props : List (String × YamlVal) := [("k", .str "\"")]

/-! ## Sanity checks against the source behaviour -/

example : sanitizeFilename "Explosion Far" = "Explosion_Far" := by decide
example : sanitizeFilename "a/b:c" = "a-b-c" := by decide
example : sanitizeFilename "-a--b-" = "a-b" := by decide
example : sanitizeFilename "" = "" := by decide

example : parseFrontmatter "" = ⟨[], 0⟩ := by decide
example : parseFrontmatter "# t\nbody" = ⟨[], 0⟩ := by decide
example : parseFrontmatter "---\nguid: g\n---\nb" =
    ⟨[("guid", .str "g")], 15⟩ := by decide
example : parseFrontmatter "---\nbanks:\n  - a\n  - b\n---\n" =
    ⟨[("banks", .list ["a", "b"])], 26⟩ := by decide
example : parseFrontmatter (formatHeader [("k", .str "a b")] ++ "x") =
    ⟨[("k", .str "a b")], 14⟩ := by decide

example : extractUserSections "## Design\nkeep\n## Notes\nold" 0 =
    [("Design", "keep")] := by decide
example : extractUserSections "## Notes\nold\n## Design\n  keep\n" 0 =
    [("Design", "keep")] := by decide

/-! ## Sanitizer lemmas (towards C8 and C10) -/

/-- Characters of a single-character replacement come from the source (and
differ from the replaced character) or from the replacement list. -/
theorem mem_replaceCharWithL {a c : Char} {r : List Char} :
    ∀ {cs : List Char}, a ∈ replaceCharWithL c r cs → (a ∈ cs ∧ a ≠ c) ∨ a ∈ r
  | [], h => by simp [replaceCharWithL] at h
  | b :: t, h => by
    simp only [replaceCharWithL, List.mem_append] at h
    rcases h with h1 | h2
    · by_cases hb : b = c
      · right; simpa [hb] using h1
      · left
        have ha : a = b := by simpa [hb] using h1
        subst ha
        exact ⟨List.mem_cons_self a t, hb⟩
    · rcases mem_replaceCharWithL h2 with ⟨h3, h4⟩ | h5
      · exact Or.inl ⟨List.mem_cons_of_mem _ h3, h4⟩
      · exact Or.inr h5

/-- A replaced character no longer occurs; untouched characters persist. -/
theorem mem_foldl_replace {a : Char} :
    ∀ {bcs : List Char} {cs : List Char}, '-' ∉ bcs →
      a ∈ bcs.foldl (fun acc c => replaceCharWithL c ['-'] acc) cs →
      (a ∈ cs ∧ a ∉ bcs) ∨ a = '-'
  | [], cs, _, h => Or.inl ⟨h, by simp⟩
  | c :: bt, cs, hd, h => by
    have ih := @mem_foldl_replace a bt (replaceCharWithL c ['-'] cs)
      (fun hm => hd (List.mem_cons_of_mem _ hm)) h
    rcases ih with ⟨h1, h2⟩ | h3
    · rcases mem_replaceCharWithL h1 with ⟨h4, h5⟩ | h6
      · exact Or.inl ⟨h4, by simp [h5, h2]⟩
      · exact Or.inr (by simpa using h6)
    · exact Or.inr h3

/-- Characters of `collapseRunsGo` output: survivors fail `p`, or are the
replacement character. -/
theorem mem_collapseRunsGo {a : Char} {p : Char → Bool} {r : Char} :
    ∀ {cs : List Char} {b : Bool},
      a ∈ collapseRunsGo p r b cs → (a ∈ cs ∧ p a = false) ∨ a = r
  | [], b, h => by simp [collapseRunsGo] at h
  | c :: t, b, h => by
    by_cases hc : p c
    · cases b with
      | false =>
        simp only [collapseRunsGo, hc, if_true] at h
        rcases List.mem_cons.mp h with h0 | h'
        · exact Or.inr h0
        · rcases mem_collapseRunsGo h' with ⟨h1, h2⟩ | h3
          · exact Or.inl ⟨List.mem_cons_of_mem _ h1, h2⟩
          · exact Or.inr h3
      | true =>
        simp only [collapseRunsGo, hc, if_true] at h
        rcases mem_collapseRunsGo h with ⟨h1, h2⟩ | h3
        · exact Or.inl ⟨List.mem_cons_of_mem _ h1, h2⟩
        · exact Or.inr h3
    · simp only [collapseRunsGo, hc, if_false] at h
      rcases List.mem_cons.mp h with h0 | h'
      · subst h0
        exact Or.inl ⟨List.mem_cons_self a t, by simpa using hc⟩
      · rcases mem_collapseRunsGo h' with ⟨h1, h2⟩ | h3
        · exact Or.inl ⟨List.mem_cons_of_mem _ h1, h2⟩
        · exact Or.inr h3

/-- Edge-hyphen stripping only removes characters. -/
theorem mem_stripEdgeHyphens {a : Char} {cs : List Char}
    (h : a ∈ stripEdgeHyphens cs) : a ∈ cs := by
  simp only [stripEdgeHyphens] at h
  split_ifs at h with h1 h2 h3
  · exact List.mem_of_mem_tail (List.mem_of_mem_dropLast h)
  · exact List.mem_of_mem_tail h
  · exact List.mem_of_mem_dropLast h
  · exact h

/-- Character-level safety of the sanitizer pipeline up to the truncation
step: no reserved character and no whitespace character remains. -/
theorem sanitizeStage_chars {s : String} {c : Char}
    (h : c ∈ stripEdgeHyphens (collapseRuns (fun c => c == '-') '-'
      (collapseRuns jsWs '_'
        (badChars.foldl (fun acc c => replaceCharWithL c ['-'] acc) s.data)))) :
    c ∉ badChars ∧ jsWs c = false := by
  have h3 := mem_stripEdgeHyphens h
  rcases mem_collapseRunsGo h3 with ⟨h2, _⟩ | hcdash
  · rcases mem_collapseRunsGo h2 with ⟨h1, hws⟩ | hcund
    · rcases mem_foldl_replace (by decide) h1 with ⟨_, hbad⟩ | hdash
      · exact ⟨hbad, hws⟩
      · subst hdash; exact ⟨by decide, hws⟩
    · subst hcund; exact ⟨by decide, by decide⟩
  · subst hcdash; exact ⟨by decide, by decide⟩

/-! ## C10: sanitizer output safety -/

/-- C10: the sanitizer's output never contains a reserved filename character
(`< > : / | ? * " \`) nor a whitespace character, and its length is bounded
by `MAX_FILENAME_LENGTH`. -/
theorem c10_sanitize_safe (s : String) :
    (sanitizeFilename s).data.all (fun c => !(badChars.contains c) && !(jsWs c)) = true ∧
    (sanitizeFilename s).length ≤ MAX_FILENAME_LENGTH := by
  have hchars : ∀ c ∈ (sanitizeFilename s).data, c ∉ badChars ∧ jsWs c = false := by
    intro c hc
    simp only [sanitizeFilename] at hc
    split_ifs at hc with hlen
    · rcases List.mem_append.mp hc with h1 | h2
      · exact sanitizeStage_chars (List.take_subset _ _ h1)
      · have hd : c = '.' := by simpa using h2
        subst hd
        exact ⟨by decide, by decide⟩
    · exact sanitizeStage_chars hc
  refine ⟨List.all_eq_true.mpr fun c hc => ?_, ?_⟩
  · have h := hchars c hc
    have h1 : badChars.contains c = false := by simpa using h.1
    rw [h1, h.2]
    rfl
  · simp only [sanitizeFilename]
    split_ifs with hlen
    · show (List.take (MAX_FILENAME_LENGTH - 3) _ ++ ['.', '.', '.']).length ≤ MAX_FILENAME_LENGTH
      rw [List.length_append, List.length_take]
      simp only [List.length_cons, List.length_nil, MAX_FILENAME_LENGTH] at hlen ⊢
      omega
    · show (stripEdgeHyphens _).length ≤ MAX_FILENAME_LENGTH
      simp only [MAX_FILENAME_LENGTH] at hlen ⊢
      omega

/-! ## C8: sanitizer idempotence -/

/-- Replacement of an absent character is the identity. -/
theorem replaceCharWithL_eq_self {c : Char} {r : List Char} :
    ∀ {cs : List Char}, c ∉ cs → replaceCharWithL c r cs = cs
  | [], _ => rfl
  | a :: t, h => by
    have h1 : c ≠ a ∧ c ∉ t := by simpa using h
    simp [replaceCharWithL, Ne.symm h1.1, replaceCharWithL_eq_self h1.2]

/-- The reserved-character pass is the identity when none is present. -/
theorem foldl_replace_eq_self :
    ∀ {bcs cs : List Char}, (∀ b ∈ bcs, b ∉ cs) →
      bcs.foldl (fun acc c => replaceCharWithL c ['-'] acc) cs = cs
  | [], _, _ => rfl
  | b :: bt, cs, h => by
    rw [List.foldl_cons, replaceCharWithL_eq_self (h b (List.mem_cons_self b bt)),
      foldl_replace_eq_self (fun x hx => h x (List.mem_cons_of_mem _ hx))]

/-- Unfolding of `noRun` on two heads. -/
theorem noRun_cons_cons {p : Char → Bool} {a b : Char} {t : List Char}
    (h : noRun p (a :: b :: t) = true) :
    (p a = false ∨ p b = false) ∧ noRun p (b :: t) = true := by
  simp only [noRun, Bool.and_eq_true, Bool.not_eq_true'] at h
  refine ⟨?_, h.2⟩
  rcases Bool.and_eq_false_iff.mp h.1 with h1 | h1 <;> [left; right] <;> exact h1

/-- `noRun` extends over a head failing `p`. -/
theorem noRun_cons_of_head {p : Char → Bool} {c : Char} {l : List Char}
    (hc : p c = false) (hl : noRun p l = true) : noRun p (c :: l) = true := by
  cases l with
  | nil => rfl
  | cons d t => simp [noRun, hc, hl]

/-- `noRun` extends over any head when the next character fails `p`. -/
theorem noRun_cons_of_next {p : Char → Bool} {c : Char} {l : List Char}
    (hl : noRun p l = true) (hh : ∀ d, l.head? = some d → p d = false) :
    noRun p (c :: l) = true := by
  cases l with
  | nil => rfl
  | cons d t =>
    have hd := hh d rfl
    simp [noRun, hd, hl]

/-- `noRun` restricts to the tail. -/
theorem noRun_tail {p : Char → Bool} {l : List Char}
    (h : noRun p l = true) : noRun p l.tail = true := by
  cases l with
  | nil => rfl
  | cons c t =>
    cases t with
    | nil => rfl
    | cons d t' => exact (noRun_cons_cons h).2

/-- `noRun` holds when no character satisfies `p` at all. -/
theorem noRun_of_all_false {p : Char → Bool} :
    ∀ {l : List Char}, (∀ a ∈ l, p a = false) → noRun p l = true
  | [], _ => rfl
  | [_], _ => rfl
  | a :: b :: t, h => by
    have ha := h a (List.mem_cons_self a (b :: t))
    have hrec := noRun_of_all_false (l := b :: t)
      (fun x hx => h x (List.mem_cons_of_mem _ hx))
    simp [noRun, ha, hrec]

/-- `noRun` restricts to prefixes. -/
theorem noRun_take {p : Char → Bool} :
    ∀ (n : Nat) {l : List Char}, noRun p l = true → noRun p (l.take n) = true
  | 0, _, _ => by simp [noRun]
  | _ + 1, [], _ => rfl
  | n + 1, [a], _ => by cases n <;> simp [noRun]
  | n + 1, a :: b :: t, h => by
    have hcc := noRun_cons_cons h
    cases n with
    | zero => simp [noRun]
    | succ m =>
      have ih : noRun p (b :: t.take m) = true := by
        simpa [List.take_succ_cons] using noRun_take (m + 1) hcc.2
      rcases hcc.1 with h1 | h1 <;> simp [noRun, List.take_succ_cons, h1, ih]

/-- `noRun` restricts to `dropLast`. -/
theorem noRun_dropLast {p : Char → Bool} {l : List Char}
    (h : noRun p l = true) : noRun p l.dropLast = true := by
  rw [List.dropLast_eq_take]
  exact noRun_take _ h

/-- `noRun` of an append whose right head fails `p`. -/
theorem noRun_append {p : Char → Bool} :
    ∀ {a b : List Char}, noRun p a = true → noRun p b = true →
      (∀ d, b.head? = some d → p d = false) → noRun p (a ++ b) = true
  | [], _, _, hb, _ => hb
  | [x], _, _, hb, hh => noRun_cons_of_next hb hh
  | x :: y :: t, b, ha, hb, hh => by
    have hcc := noRun_cons_cons ha
    have ih : noRun p (y :: (t ++ b)) = true := by
      simpa using noRun_append (a := y :: t) hcc.2 hb hh
    rcases hcc.1 with h1 | h1 <;> simp [noRun, h1, ih]

/-- Output of `collapseRunsGo`: no run of `p`-characters survives, and in the
`inRun` state the next emitted character fails `p`. -/
theorem collapseRunsGo_noRun {p : Char → Bool} {r : Char} :
    ∀ cs : List Char,
      noRun p (collapseRunsGo p r false cs) = true ∧
      noRun p (collapseRunsGo p r true cs) = true ∧
      (∀ d, (collapseRunsGo p r true cs).head? = some d → p d = false)
  | [] => by simp [collapseRunsGo, noRun]
  | c :: t => by
    have ih := collapseRunsGo_noRun (p := p) (r := r) t
    by_cases hc : p c
    · refine ⟨?_, ?_, ?_⟩
      · simp only [collapseRunsGo, hc, if_true]
        exact noRun_cons_of_next ih.2.1 ih.2.2
      · simp only [collapseRunsGo, hc, if_true]
        exact ih.2.1
      · simp only [collapseRunsGo, hc, if_true]
        exact ih.2.2
    · have hcf : p c = false := by simpa using hc
      refine ⟨?_, ?_, ?_⟩
      · simp only [collapseRunsGo, hcf, Bool.false_eq_true, if_false]
        exact noRun_cons_of_head hcf ih.1
      · simp only [collapseRunsGo, hcf, Bool.false_eq_true, if_false]
        exact noRun_cons_of_head hcf ih.1
      · simp only [collapseRunsGo, hcf, Bool.false_eq_true, if_false]
        intro d hd
        have : c = d := by simpa using hd
        subst this
        exact hcf

/-- `collapseRunsGo` steps over a character failing `p` in either state. -/
theorem collapseRunsGo_head_not {p : Char → Bool} {r d : Char} {t : List Char}
    {b : Bool} (hd : p d = false) :
    collapseRunsGo p r b (d :: t) = d :: collapseRunsGo p r false t := by
  cases b <;> simp [collapseRunsGo, hd]

/-- Run collapsing is the identity on run-free input whose `p`-characters
already equal the replacement. -/
theorem collapseRunsGo_eq_self {p : Char → Bool} {r : Char} :
    ∀ {cs : List Char}, noRun p cs = true → (∀ a ∈ cs, p a = true → a = r) →
      collapseRunsGo p r false cs = cs
  | [], _, _ => rfl
  | c :: t, hnr, hs => by
    by_cases hc : p c
    · have hcr : c = r := hs c (List.mem_cons_self c t) hc
      have htail : noRun p t = true := noRun_tail hnr
      have hnext : ∀ d, t.head? = some d → p d = false := by
        intro d hd
        cases t with
        | nil => simp at hd
        | cons e t' =>
          have he : e = d := by simpa using hd
          subst he
          rcases (noRun_cons_cons hnr).1 with h | h
          · exact absurd hc (by simp [h])
          · exact h
      have heq : collapseRunsGo p r true t = collapseRunsGo p r false t := by
        cases t with
        | nil => rfl
        | cons e t' =>
          have he : p e = false := hnext e rfl
          rw [collapseRunsGo_head_not he, collapseRunsGo_head_not he]
      simp only [collapseRunsGo, hc, if_true, Bool.false_eq_true, if_false]
      rw [heq, collapseRunsGo_eq_self htail
        (fun a ha hp => hs a (List.mem_cons_of_mem _ ha) hp), hcr]
    · have hcf : p c = false := by simpa using hc
      have htail : noRun p t = true := noRun_tail hnr
      rw [collapseRunsGo_head_not hcf,
        collapseRunsGo_eq_self htail
          (fun a ha hp => hs a (List.mem_cons_of_mem _ ha) hp)]

/-- `stripEdgeHyphens` is the identity when neither edge is a hyphen. -/
theorem stripEdgeHyphens_eq_self {cs : List Char}
    (h1 : cs.head? ≠ some '-') (h2 : cs.getLast? ≠ some '-') :
    stripEdgeHyphens cs = cs := by
  simp [stripEdgeHyphens, h1, h2]

/-- Unfolding of `stripEdgeHyphens` without the intermediate binding. -/
theorem stripEdgeHyphens_eq (cs : List Char) :
    stripEdgeHyphens cs =
      (if (if cs.head? = some '-' then cs.tail else cs).getLast? = some '-'
       then (if cs.head? = some '-' then cs.tail else cs).dropLast
       else (if cs.head? = some '-' then cs.tail else cs)) := rfl

/-- `noRun` survives edge stripping. -/
theorem noRun_stripEdgeHyphens {p : Char → Bool} {cs : List Char}
    (h : noRun p cs = true) : noRun p (stripEdgeHyphens cs) = true := by
  have ha : noRun p (if cs.head? = some '-' then cs.tail else cs) = true := by
    split_ifs
    · exact noRun_tail h
    · exact h
  rw [stripEdgeHyphens_eq]
  set a := (if cs.head? = some '-' then cs.tail else cs) with hadef
  split_ifs
  · exact noRun_dropLast ha
  · exact ha

/-- `head?` of `dropLast` is `none` or the original head. -/
theorem head?_dropLast_cases (l : List Char) :
    l.dropLast.head? = none ∨ l.dropLast.head? = l.head? := by
  cases l with
  | nil => exact Or.inl rfl
  | cons x t =>
    cases t with
    | nil => exact Or.inl rfl
    | cons y t' => exact Or.inr rfl

/-- After stripping, the head is not a hyphen (given run-freedom). -/
theorem stripEdge_head_ne {cs : List Char}
    (h : noRun (fun c => c == '-') cs = true) :
    (stripEdgeHyphens cs).head? ≠ some '-' := by
  have ha : (if cs.head? = some '-' then cs.tail else cs).head? ≠ some '-' := by
    split_ifs with hh
    · cases cs with
      | nil => simp at hh
      | cons c t =>
        have hc : c = '-' := by simpa using hh
        subst hc
        cases t with
        | nil => simp
        | cons d t' =>
          rcases (noRun_cons_cons h).1 with h1 | h1
          · simp at h1
          · have hd : d ≠ '-' := by simpa using h1
            simpa using hd
    · exact hh
  rw [stripEdgeHyphens_eq]
  set a := (if cs.head? = some '-' then cs.tail else cs) with hadef
  split_ifs with hl
  · rcases head?_dropLast_cases a with h2 | h2
    · rw [h2]; simp
    · rw [h2]; exact ha
  · exact ha

/-- In a run-free list ending in a `p`-character, the character before the
last fails `p`. -/
theorem getLast_dropLast_not {p : Char → Bool} :
    ∀ {l : List Char}, noRun p l = true → (∀ c, l.getLast? = some c → p c = true) →
      ∀ d, l.dropLast.getLast? = some d → p d = false
  | [], _, _, d, hd => by simp at hd
  | [x], _, _, d, hd => by simp at hd
  | x :: y :: t, hnr, hlast, d, hd => by
    cases t with
    | nil =>
      have hx : x = d := by simpa using hd
      subst hx
      have hy := hlast y (by simp)
      rcases (noRun_cons_cons hnr).1 with h1 | h1
      · exact h1
      · rw [h1] at hy; exact absurd hy (by simp)
    | cons e t' =>
      have hrec := getLast_dropLast_not (l := y :: e :: t') (noRun_cons_cons hnr).2
        (fun c hc => hlast c (by simpa using hc))
      apply hrec d
      have hd2 : (x :: y :: (e :: t').dropLast).getLast? = some d := hd
      rwa [List.getLast?_cons_cons] at hd2

/-- After stripping, the last character is not a hyphen (given
run-freedom). -/
theorem stripEdge_last_ne {cs : List Char}
    (h : noRun (fun c => c == '-') cs = true) :
    (stripEdgeHyphens cs).getLast? ≠ some '-' := by
  have ha : noRun (fun c => c == '-') (if cs.head? = some '-' then cs.tail else cs) = true := by
    split_ifs
    · exact noRun_tail h
    · exact h
  rw [stripEdgeHyphens_eq]
  set a := (if cs.head? = some '-' then cs.tail else cs) with hadef
  split_ifs with hl
  · intro hd
    have := getLast_dropLast_not ha
      (fun c hc => by
        rw [hl] at hc
        have hcd : c = '-' := by simpa using (Option.some.inj hc).symm
        simp [hcd]) '-' hd
    simp at this
  · intro hd
    exact absurd hd hl

/-- The sanitizer pipeline up to truncation, named for the idempotence
proof. -/
theorem sanitize_untruncated (cs : List Char)
    (hbad : ∀ b ∈ badChars, b ∉ cs)
    (hws : ∀ a ∈ cs, jsWs a = false)
    (hnr : noRun (fun c => c == '-') cs = true)
    (hhead : cs.head? ≠ some '-') (hlast : cs.getLast? ≠ some '-') :
    stripEdgeHyphens (collapseRuns (fun c => c == '-') '-'
      (collapseRuns jsWs '_'
        (badChars.foldl (fun acc c => replaceCharWithL c ['-'] acc) cs))) = cs := by
  rw [foldl_replace_eq_self hbad]
  rw [show collapseRuns jsWs '_' cs = cs from
    collapseRunsGo_eq_self (noRun_of_all_false hws)
      (fun a ha hp => absurd hp (by simp [hws a ha]))]
  rw [show collapseRuns (fun c => c == '-') '-' cs = cs from
    collapseRunsGo_eq_self hnr (fun a _ hp => by simpa using hp)]
  exact stripEdgeHyphens_eq_self hhead hlast

/-- C8: `sanitizeFilename` is idempotent. -/
theorem c8_sanitize_idem (x : String) :
    sanitizeFilename (sanitizeFilename x) = sanitizeFilename x := by
  have hchars : ∀ c ∈ stripEdgeHyphens (collapseRuns (fun c => c == '-') '-'
      (collapseRuns jsWs '_'
        (badChars.foldl (fun acc c => replaceCharWithL c ['-'] acc) x.data))),
      c ∉ badChars ∧ jsWs c = false := fun c hc => sanitizeStage_chars hc
  set L := stripEdgeHyphens (collapseRuns (fun c => c == '-') '-'
      (collapseRuns jsWs '_'
        (badChars.foldl (fun acc c => replaceCharWithL c ['-'] acc) x.data))) with hL
  have hnr3 : noRun (fun c => c == '-') (collapseRuns (fun c => c == '-') '-'
      (collapseRuns jsWs '_'
        (badChars.foldl (fun acc c => replaceCharWithL c ['-'] acc) x.data))) = true :=
    (collapseRunsGo_noRun _).1
  have hnrL : noRun (fun c => c == '-') L = true := noRun_stripEdgeHyphens hnr3
  have hheadL : L.head? ≠ some '-' := stripEdge_head_ne hnr3
  have hlastL : L.getLast? ≠ some '-' := stripEdge_last_ne hnr3
  have hfirst : sanitizeFilename x =
      if L.length > MAX_FILENAME_LENGTH
      then ⟨L.take (MAX_FILENAME_LENGTH - 3) ++ ['.', '.', '.']⟩
      else ⟨L⟩ := rfl
  by_cases hlen : L.length > MAX_FILENAME_LENGTH
  · -- truncated: the output is `take 97 L ++ "..."`, length exactly 100
    rw [hfirst, if_pos hlen]
    set y := L.take (MAX_FILENAME_LENGTH - 3) ++ ['.', '.', '.'] with hy
    have hybad : ∀ b ∈ badChars, b ∉ y := by
      intro b hb hmem
      rcases List.mem_append.mp hmem with h1 | h1
      · exact (hchars b (List.take_subset _ _ h1)).1 hb
      · have : b = '.' := by simpa using h1
        subst this
        simp [badChars] at hb
    have hyws : ∀ a ∈ y, jsWs a = false := by
      intro a ha
      rcases List.mem_append.mp ha with h1 | h1
      · exact (hchars a (List.take_subset _ _ h1)).2
      · have : a = '.' := by simpa using h1
        subst this
        decide
    have hynr : noRun (fun c => c == '-') y = true := by
      refine noRun_append (noRun_take _ hnrL) (by decide) ?_
      intro d hd
      have hdd : '.' = d := by simpa using hd
      subst hdd
      decide
    have hyhead : y.head? ≠ some '-' := by
      have hL0 : L ≠ [] := by
        intro h0
        rw [h0] at hlen
        simp [MAX_FILENAME_LENGTH] at hlen
      cases hL : L with
      | nil => exact absurd hL hL0
      | cons c t =>
        rw [hL] at hheadL
        have hc : c ≠ '-' := by simpa using hheadL
        rw [hy, hL]
        simp only [MAX_FILENAME_LENGTH]
        simpa using hc
    have hylast : y.getLast? ≠ some '-' := by
      rw [hy, show L.take (MAX_FILENAME_LENGTH - 3) ++ ['.', '.', '.'] =
        (L.take (MAX_FILENAME_LENGTH - 3) ++ ['.', '.']) ++ ['.'] by simp,
        List.getLast?_concat]
      simp
    have hylen : y.length = MAX_FILENAME_LENGTH := by
      rw [hy, List.length_append, List.length_take]
      simp only [List.length_cons, List.length_nil, MAX_FILENAME_LENGTH] at hlen ⊢
      omega
    show sanitizeFilename ⟨y⟩ = ⟨y⟩
    simp only [sanitizeFilename]
    rw [sanitize_untruncated y hybad hyws hynr hyhead hylast, hylen]
    simp
  · rw [hfirst, if_neg hlen]
    show sanitizeFilename ⟨L⟩ = ⟨L⟩
    simp only [sanitizeFilename]
    rw [sanitize_untruncated L (fun b hb hmem => (hchars b hmem).1 hb)
        (fun a ha => (hchars a ha).2) hnrL hheadL hlastL]
    rw [if_neg hlen]

/-! ## C9: per-record fault isolation in the driver -/

/-- `processEvent` threads the error counter through unchanged: its outcome
at a shifted error count is the outcome at the original, with the error
count replaced. -/
theorem processEvent_errors (event : FMODEvent) (outputPath : String)
    (notesByGuid notesByName : List (String × NoteRef)) (vaultPaths : List String)
    (exportedAt projectName : String) (s : SyncStats) (k : Nat) (sk : List SkipReason) :
    processEvent event outputPath notesByGuid notesByName vaultPaths
        exportedAt projectName { s with errors := k } sk =
      (fun r => ⟨r.ops, { r.stats with errors := k }, r.skipped⟩)
        (processEvent event outputPath notesByGuid notesByName vaultPaths
          exportedAt projectName s sk) := by
  simp only [processEvent, writePhase]
  repeat' split
  all_goals rfl

/-- A non-raising event is processed identically under any fault oracle. -/
theorem syncStep_congr (outputPath : String)
    (idx : List (String × NoteRef) × List (String × NoteRef))
    (exportedAt projectName : String) (throws : FMODEvent → Bool)
    (rs : RunState) (event : FMODEvent) (h : throws event = false) :
    syncStep outputPath idx exportedAt projectName throws rs event =
      syncStep outputPath idx exportedAt projectName (fun _ => false) rs event := by
  simp [syncStep, h]

/-- Folding non-raising events is oracle-independent. -/
theorem foldl_syncStep_congr (outputPath : String)
    (idx : List (String × NoteRef) × List (String × NoteRef))
    (exportedAt projectName : String) (throws : FMODEvent → Bool) :
    ∀ (events : List FMODEvent) (rs : RunState),
      (∀ x ∈ events, throws x = false) →
      events.foldl (syncStep outputPath idx exportedAt projectName throws) rs =
        events.foldl (syncStep outputPath idx exportedAt projectName (fun _ => false)) rs
  | [], _, _ => rfl
  | e :: t, rs, h => by
    rw [List.foldl_cons, List.foldl_cons,
      syncStep_congr _ _ _ _ _ _ _ (h e (List.mem_cons_self e t)),
      foldl_syncStep_congr _ _ _ _ _ t _ (fun x hx => h x (List.mem_cons_of_mem _ hx))]

/-- A fault-free step commutes with shifting the error counter. -/
theorem syncStep_errors (outputPath : String)
    (idx : List (String × NoteRef) × List (String × NoteRef))
    (exportedAt projectName : String) (rs : RunState) (event : FMODEvent) (k : Nat) :
    syncStep outputPath idx exportedAt projectName (fun _ => false)
        { rs with stats := { rs.stats with errors := k } } event =
      (fun out => { out with stats := { out.stats with errors := k } })
        (syncStep outputPath idx exportedAt projectName (fun _ => false) rs event) := by
  simp only [syncStep, if_neg (by simp : ¬ (false = true))]
  rw [processEvent_errors]

/-- A fault-free fold commutes with shifting the error counter. -/
theorem foldl_syncStep_errors (outputPath : String)
    (idx : List (String × NoteRef) × List (String × NoteRef))
    (exportedAt projectName : String) :
    ∀ (events : List FMODEvent) (rs : RunState) (k : Nat),
      events.foldl (syncStep outputPath idx exportedAt projectName (fun _ => false))
          { rs with stats := { rs.stats with errors := k } } =
        (fun out => { out with stats := { out.stats with errors := k } })
          (events.foldl (syncStep outputPath idx exportedAt projectName (fun _ => false)) rs)
  | [], _, _ => rfl
  | e :: t, rs, k => by
    rw [List.foldl_cons, syncStep_errors, List.foldl_cons]
    exact foldl_syncStep_errors _ _ _ _ t _ k

/-- A fault-free fold never touches the error counter. -/
theorem foldl_syncStep_errors_const (outputPath : String)
    (idx : List (String × NoteRef) × List (String × NoteRef))
    (exportedAt projectName : String) (events : List FMODEvent) (rs : RunState) :
    (events.foldl (syncStep outputPath idx exportedAt projectName (fun _ => false)) rs).stats.errors
      = rs.stats.errors := by
  have h := foldl_syncStep_errors outputPath idx exportedAt projectName events rs rs.stats.errors
  have hrs : ({ rs with stats := { rs.stats with errors := rs.stats.errors } } : RunState) = rs := rfl
  rw [hrs] at h
  rw [h]

/-- C9: if processing one record raises an exception, the driver catches it,
counts exactly one error for that record, and still processes every
remaining record exactly as it would have without the faulty record: the
run completes, and its outcome equals the fault-free outcome on the other
records with the error counter incremented by one. -/
theorem c9_error_isolation (pre : List FMODEvent) (e : FMODEvent) (post : List FMODEvent)
    (outputPath : String) (vault0 : List (String × String))
    (exportedAt projectName : String) (throws : FMODEvent → Bool)
    (he : throws e = true)
    (hpre : ∀ x ∈ pre, throws x = false) (hpost : ∀ x ∈ post, throws x = false) :
    runSync (pre ++ e :: post) outputPath vault0 exportedAt projectName throws =
      (fun r => { r with stats := { r.stats with errors := r.stats.errors + 1 } })
        (runSync (pre ++ post) outputPath vault0 exportedAt projectName (fun _ => false)) := by
  simp only [runSync]
  rw [List.foldl_append, List.foldl_append, List.foldl_cons]
  rw [foldl_syncStep_congr _ _ _ _ _ pre _ hpre]
  set idx := buildIndexes (scanNotes vault0 outputPath)
  set A := pre.foldl (syncStep outputPath idx exportedAt projectName (fun _ => false))
    ⟨⟨0, 0, 0, 0, 0⟩, [], [], vault0⟩ with hA
  have hstep : syncStep outputPath idx exportedAt projectName throws A e =
      { A with stats := { A.stats with errors := A.stats.errors + 1 } } := by
    simp [syncStep, he]
  rw [hstep]
  rw [foldl_syncStep_congr _ _ _ _ _ post _ hpost]
  rw [foldl_syncStep_errors]
  have herr := foldl_syncStep_errors_const outputPath idx exportedAt projectName post A
  rw [herr]

/-- C9 witness: a three-record batch whose middle record raises. -/
theorem c9_witness :
    runSync [⟨"A", "ga", "", "", [], "", "", "", "", [], []⟩,
             ⟨"boom", "gb", "", "", [], "", "", "", "", [], []⟩,
             ⟨"C", "gc", "", "", [], "", "", "", "", [], []⟩]
        "Events" [] "t" "P" (fun ev => ev.name == "boom") =
      (fun r => { r with stats := { r.stats with errors := r.stats.errors + 1 } })
        (runSync [⟨"A", "ga", "", "", [], "", "", "", "", [], []⟩,
                  ⟨"C", "gc", "", "", [], "", "", "", "", [], []⟩]
          "Events" [] "t" "P" (fun _ => false)) :=
  c9_error_isolation [⟨"A", "ga", "", "", [], "", "", "", "", [], []⟩]
    ⟨"boom", "gb", "", "", [], "", "", "", "", [], []⟩
    [⟨"C", "gc", "", "", [], "", "", "", "", [], []⟩]
    "Events" [] "t" "P" (fun ev => ev.name == "boom")
    (by decide) (by decide) (by decide)

/-! ## Association-list and join lemmas -/

/-- Strings are equal when their character lists are. -/
theorem strExt {a b : String} (h : a.data = b.data) : a = b := by
  cases a
  cases b
  exact congrArg String.mk h

/-- `String.join` distributes over append. -/
theorem join_append (l1 l2 : List String) :
    String.join (l1 ++ l2) = String.join l1 ++ String.join l2 :=
  strExt (by simp [String.join_eq])

/-- `String.join` unfolds on cons. -/
theorem join_cons (x : String) (l : List String) :
    String.join (x :: l) = x ++ String.join l :=
  strExt (by simp [String.join_eq])

/-- Lookup on a cons cell. -/
theorem getAssoc_cons {α : Type} (a : String × α) (t : List (String × α)) (k : String) :
    getAssoc (a :: t) k = if a.1 = k then some a.2 else getAssoc t k := by
  by_cases h : a.1 == k
  · simp [getAssoc, List.find?_cons_of_pos _ h, beq_iff_eq.mp h]
  · have h' : ¬ a.1 = k := by simpa using h
    simp [getAssoc, List.find?_cons_of_neg _ h, h']

/-- Lookup distributes over append. -/
theorem getAssoc_append {α : Type} :
    ∀ (m1 m2 : List (String × α)) (k : String),
      getAssoc (m1 ++ m2) k = (getAssoc m1 k).or (getAssoc m2 k)
  | [], _, _ => rfl
  | (a, b) :: t, m2, k => by
    by_cases ha : a = k <;> simp [getAssoc_cons, ha, getAssoc_append t m2 k]

/-- In-place overwrite of a different key does not change a lookup. -/
theorem getAssoc_map_overwrite {α : Type} {k k' : String} {v' : α} (h : k' ≠ k) :
    ∀ m : List (String × α),
      getAssoc (m.map (fun p => if p.1 == k' then (k', v') else p)) k = getAssoc m k
  | [] => rfl
  | (a, b) :: t => by
    rw [List.map_cons]
    by_cases ha : a = k'
    · have hhead : (if (a, b).1 == k' then (k', v') else (a, b)) = (k', v') := by simp [ha]
      rw [hhead, getAssoc_cons, getAssoc_cons, if_neg h, if_neg (by rw [ha]; exact h)]
      exact getAssoc_map_overwrite h t
    · have hhead : (if (a, b).1 == k' then (k', v') else (a, b)) = (a, b) := by simp [ha]
      rw [hhead, getAssoc_cons, getAssoc_cons]
      by_cases hak : a = k
      · rw [if_pos hak, if_pos hak]
      · rw [if_neg hak, if_neg hak]
        exact getAssoc_map_overwrite h t

/-- Setting a different key does not change a lookup. -/
theorem getAssoc_setAssoc_ne {α : Type} {k k' : String} (m : List (String × α)) (v' : α)
    (h : k' ≠ k) : getAssoc (setAssoc m k' v') k = getAssoc m k := by
  simp only [setAssoc]
  split_ifs with hany
  · exact getAssoc_map_overwrite h m
  · rw [getAssoc_append]
    have : getAssoc [(k', v')] k = none := by simp [getAssoc_cons, h, getAssoc]
    rw [this, Option.or_none]

/-- A successful lookup exhibits membership. -/
theorem mem_of_getAssoc {α : Type} {m : List (String × α)} {k : String} {v : α}
    (h : getAssoc m k = some v) : (k, v) ∈ m := by
  simp only [getAssoc, Option.map_eq_some'] at h
  obtain ⟨p, hp, hv⟩ := h
  have h1 : p.1 = k := by simpa using List.find?_some hp
  have h2 := List.mem_of_find?_eq_some hp
  have hpkv : p = (k, v) := by
    cases p
    simp_all
  rwa [hpkv] at h2

/-! ## C4: user-section preservation -/

/-- Lines before the first heading are skipped by the section loop. -/
theorem foldl_sectionLine_skips :
    ∀ (pre : List (List Char)) (sects : List (String × String)) (cc : List String),
      (∀ l ∈ pre, startsWithL l ['#', '#', ' '] = false) →
      pre.foldl sectionLine ⟨sects, none, cc⟩ = ⟨sects, none, cc⟩
  | [], _, _, _ => rfl
  | l :: t, sects, cc, h => by
    have h1 := h l (List.mem_cons_self l t)
    rw [List.foldl_cons]
    have hstep : sectionLine ⟨sects, none, cc⟩ l = ⟨sects, none, cc⟩ := by
      simp [sectionLine, h1]
    rw [hstep]
    exact foldl_sectionLine_skips t sects cc (fun x hx => h x (List.mem_cons_of_mem _ hx))

/-- Non-heading lines accumulate verbatim into the current (truthy)
section. -/
theorem foldl_sectionLine_content :
    ∀ (C : List (List Char)) (st : SectSt) (k : String),
      st.currentSection = some k → k ≠ "" →
      (∀ l ∈ C, startsWithL l ['#', '#', ' '] = false) →
      C.foldl sectionLine st =
        { st with currentContent := st.currentContent ++ C.map (fun l => (⟨l⟩ : String)) }
  | [], st, k, _, _, _ => by simp
  | l :: t, st, k, hk, hne, h => by
    rw [List.foldl_cons]
    have h1 := h l (List.mem_cons_self l t)
    have hstep : sectionLine st l =
        { st with currentContent := st.currentContent ++ [⟨l⟩] } := by
      simp [sectionLine, h1, hk, hne]
    rw [hstep]
    have hk2 : ({ st with currentContent := st.currentContent ++ [⟨l⟩] } : SectSt).currentSection
        = some k := hk
    rw [foldl_sectionLine_content t _ k hk2 hne (fun x hx => h x (List.mem_cons_of_mem _ hx))]
    simp

/-- Flushing with a current section different from `k` preserves the lookup
of `k`. -/
theorem getAssoc_flushSection_ne {st : SectSt} {k : String}
    (hc : ∀ c, st.currentSection = some c → c ≠ k) :
    getAssoc (flushSection st) k = getAssoc st.sections k := by
  obtain ⟨sects, cs, cc⟩ := st
  cases cs with
  | none => rfl
  | some c =>
    have hck : c ≠ k := hc c rfl
    simp only [flushSection]
    split_ifs with h
    · exact getAssoc_setAssoc_ne _ _ hck
    · rfl

/-- Processing further lines whose headings differ from `k` preserves the
recorded section `k`. -/
theorem getAssoc_foldl_sectionLine :
    ∀ (lines : List (List Char)) (st : SectSt) (k : String) (v : String),
      getAssoc st.sections k = some v →
      (∀ c, st.currentSection = some c → c ≠ k) →
      (∀ l ∈ lines, startsWithL l ['#', '#', ' '] = true →
        (⟨trimL (l.drop 3)⟩ : String) ≠ k) →
      getAssoc (flushSection (lines.foldl sectionLine st)) k = some v
  | [], st, k, v, hv, hc, _ => by
    show getAssoc (flushSection st) k = some v
    rw [getAssoc_flushSection_ne hc]
    exact hv
  | l :: t, st, k, v, hv, hc, h => by
    rw [List.foldl_cons]
    by_cases hl : startsWithL l ['#', '#', ' '] = true
    · have hstep : sectionLine st l =
          ⟨flushSection st, some ⟨trimL (l.drop 3)⟩, []⟩ := by
        simp [sectionLine, hl]
      rw [hstep]
      refine getAssoc_foldl_sectionLine t _ k v ?_ ?_
        (fun x hx hh => h x (List.mem_cons_of_mem _ hx) hh)
      · show getAssoc (flushSection st) k = some v
        rw [getAssoc_flushSection_ne hc]
        exact hv
      · intro c hcs
        have hcc : (⟨trimL (l.drop 3)⟩ : String) = c := by
          simpa using hcs
        rw [← hcc]
        exact h l (List.mem_cons_self l t) hl
    · have hlf : startsWithL l ['#', '#', ' '] = false := by simpa using hl
      have hstep : sectionLine st l =
          if (st.currentSection.getD "") ≠ ""
          then { st with currentContent := st.currentContent ++ [⟨l⟩] }
          else st := by
        simp [sectionLine, hlf]
      rw [hstep]
      split_ifs
      · exact getAssoc_foldl_sectionLine t _ k v hv hc
          (fun x hx hh => h x (List.mem_cons_of_mem _ hx) hh)
      · exact getAssoc_foldl_sectionLine t _ k v hv hc
          (fun x hx hh => h x (List.mem_cons_of_mem _ hx) hh)

/-- C4, counterexample: the user section "Design Rationale" of `c4Doc` has
text `"    indented"`, but the synced output does not contain that exact
text — the extractor records it with the leading whitespace trimmed. -/
theorem c4_counterexample :
    extractUserSections c4Doc 0 = [("Design Rationale", "indented")] ∧
    containsSubstr (generateMarkdown c4Event (some c4Doc) "t" "P") "    indented" = false := by
  decide

/-- C4, amended: syncing a record onto a document with user-authored
sections (second-level headings outside the managed set) carries each user
section's text forward with leading and trailing whitespace trimmed
(interior bytes unchanged), appended after the regenerated managed sections
in the order first encountered, while the managed Notes section is exactly
the record's notes field.  Conjunct one places the Notes block and the
preserved blocks in the output; conjunct two computes the recorded text of
a decomposed user section (the `jsTrim`); conjunct three turns a recorded
section into its literal block inside the emitted tail. -/
theorem c4_amended :
    (∀ (ev : FMODEvent) (ex : String) (eAt pN : String),
      generateMarkdown ev (some ex) eAt pN =
        mdPreamble ev (parseFrontmatter ex).properties eAt pN ++
          ("## Notes\n" ++ ev.notes ++ "\n\n") ++ userPropsSection ev ++
          String.join ((extractUserSections ex (parseFrontmatter ex).bodyStart).map
            sectionBlock)) ∧
    (∀ (content : String) (bodyStart : Nat) (pre : List (List Char)) (H : String)
        (C : List (List Char)) (post : List (List Char)),
      (content.data.drop bodyStart).splitOn '\n' =
        pre ++ ("## " ++ H).data :: (C ++ post) →
      (∀ l ∈ pre, startsWithL l ['#', '#', ' '] = false) →
      (∀ l ∈ C, startsWithL l ['#', '#', ' '] = false) →
      jsTrim H ≠ "" →
      managedSections.contains (toLowerStr (jsTrim H)) = false →
      (post = [] ∨ ∃ l post', post = l :: post' ∧ startsWithL l ['#', '#', ' '] = true) →
      (∀ l ∈ post, startsWithL l ['#', '#', ' '] = true →
        (⟨trimL (l.drop 3)⟩ : String) ≠ jsTrim H) →
      getAssoc (extractUserSections content bodyStart) (jsTrim H) =
        some (jsTrim (String.intercalate "\n" (C.map (fun l => (⟨l⟩ : String)))))) ∧
    (∀ (secs : List (String × String)) (k v : String),
      getAssoc secs k = some v →
      ∃ x y, String.join (secs.map sectionBlock) = x ++ sectionBlock (k, v) ++ y) := by
  refine ⟨fun ev ex eAt pN => rfl, ?_, ?_⟩
  · intro content bodyStart pre H C post hsplit hpre hC hne hman hpost hpostne
    simp only [extractUserSections]
    rw [hsplit, List.foldl_append,
      foldl_sectionLine_skips pre [] [] hpre, List.foldl_cons]
    have hhead : sectionLine ⟨[], none, []⟩ (("## " ++ H).data) =
        ⟨[], some (jsTrim H), []⟩ := by
      have hsw : startsWithL (("## " ++ H).data) ['#', '#', ' '] = true := by
        rw [String.data_append, show "## ".data = ['#', '#', ' '] from rfl]
        show List.isPrefixOf ['#', '#', ' '] ('#' :: '#' :: ' ' :: H.data) = true
        simp [List.isPrefixOf]

      have hdrop : (("## " ++ H).data).drop 3 = H.data := by
        rw [String.data_append, show "## ".data = ['#', '#', ' '] from rfl]
        rfl
      have hsw2 : startsWithL ('#' :: '#' :: ' ' :: H.data) ['#', '#', ' '] = true := by
        show List.isPrefixOf ['#', '#', ' '] ('#' :: '#' :: ' ' :: H.data) = true
        simp [List.isPrefixOf]
      simp [sectionLine, hsw, hsw2, hdrop, flushSection, jsTrim]
    rw [hhead, List.foldl_append,
      foldl_sectionLine_content C _ (jsTrim H) rfl hne hC]
    set v := jsTrim (String.intercalate "\n" (C.map (fun l => (⟨l⟩ : String)))) with hv
    rcases hpost with hnil | ⟨l, post', hcons, hl⟩
    · subst hnil
      rw [List.foldl_nil]
      have hman2 : toLowerStr (jsTrim H) ∉ managedSections := by simpa using hman
      have hflush : flushSection ⟨[], some (jsTrim H), [] ++ C.map (fun l => (⟨l⟩ : String))⟩ =
          [(jsTrim H, v)] := by
        simp [flushSection, hne, hman2, setAssoc, hv]
      rw [hflush]
      simp [getAssoc_cons]
    · subst hcons
      rw [List.foldl_cons]
      have hman2 : toLowerStr (jsTrim H) ∉ managedSections := by simpa using hman
      have hstep : sectionLine ⟨[], some (jsTrim H), [] ++ C.map (fun l => (⟨l⟩ : String))⟩ l =
          ⟨[(jsTrim H, v)], some ⟨trimL (l.drop 3)⟩, []⟩ := by
        simp [sectionLine, hl, flushSection, hne, hman2, setAssoc, hv]
      rw [hstep]
      refine getAssoc_foldl_sectionLine post' _ (jsTrim H) v ?_ ?_
        (fun x hx hh => hpostne x (List.mem_cons_of_mem _ hx) hh)
      · simp [getAssoc_cons]
      · intro c hcs
        have hcc : (⟨trimL (l.drop 3)⟩ : String) = c := by simpa using hcs
        rw [← hcc]
        exact hpostne l (List.mem_cons_self l post') hl
  · intro secs k v h
    obtain ⟨s, t, hst⟩ := List.append_of_mem (mem_of_getAssoc h)
    refine ⟨String.join (s.map sectionBlock), String.join (t.map sectionBlock), ?_⟩
    rw [hst, List.map_append, List.map_cons, join_append, join_cons, String.append_assoc]

/-- C4 witness: the amended theorem applied to the concrete scenario —
the "Design Rationale" section is recorded as its trimmed text, the output
ends with the recorded blocks after the Notes section, and the recorded
section appears as a literal block. -/
theorem c4_witness :
    (generateMarkdown c4Event (some c4Doc) "t" "P" =
      mdPreamble c4Event (parseFrontmatter c4Doc).properties "t" "P" ++
        ("## Notes\n" ++ c4Event.notes ++ "\n\n") ++ userPropsSection c4Event ++
        String.join ((extractUserSections c4Doc (parseFrontmatter c4Doc).bodyStart).map
          sectionBlock)) ∧
    getAssoc (extractUserSections c4Doc 0) (jsTrim "Design Rationale") =
      some (jsTrim (String.intercalate "\n" [("    indented" : String)])) ∧
    (∃ x y, String.join ((extractUserSections c4Doc 0).map sectionBlock) =
      x ++ sectionBlock ("Design Rationale", "indented") ++ y) :=
  ⟨c4_amended.1 c4Event c4Doc "t" "P",
   by
    have h := c4_amended.2.1 c4Doc 0 [] "Design Rationale"
      [("    indented".data)] ["## Notes".data, "old".data]
      (by decide) (by decide) (by decide) (by decide) (by decide)
      (Or.inr ⟨"## Notes".data, ["old".data], rfl, by decide⟩)
      (by decide)
    simpa using h,
   c4_amended.2.2 (extractUserSections c4Doc 0) "Design Rationale" "indented" (by decide)⟩

/-! ## Trim infrastructure (towards C5) -/

/-- `dropWhile` is the identity when the head fails the predicate. -/
theorem dropWhile_head_not {p : Char → Bool} {l : List Char}
    (h : ∀ c, l.head? = some c → p c = false) : l.dropWhile p = l := by
  cases l with
  | nil => rfl
  | cons c t => simp [List.dropWhile_cons, h c rfl]

/-- `dropWhile` never lengthens a list. -/
theorem length_dropWhile_le (p : Char → Bool) :
    ∀ l : List Char, (l.dropWhile p).length ≤ l.length
  | [] => Nat.le_refl 0
  | c :: t => by
    rw [List.dropWhile_cons]
    split_ifs
    · exact Nat.le_succ_of_le (length_dropWhile_le p t)
    · exact Nat.le_refl _

/-- A length-preserving `dropWhile` dropped nothing. -/
theorem dropWhile_eq_self_of_length {p : Char → Bool} :
    ∀ {l : List Char}, (l.dropWhile p).length = l.length → l.dropWhile p = l
  | [], _ => rfl
  | c :: t, h => by
    rw [List.dropWhile_cons] at h ⊢
    split_ifs at h ⊢ with hc
    · exact absurd h (by have := length_dropWhile_le p t; simp; omega)
    · rfl

/-- The head of a `dropWhile` result fails the predicate. -/
theorem head?_dropWhile_not {p : Char → Bool} :
    ∀ {l : List Char} {c : Char}, (l.dropWhile p).head? = some c → p c = false
  | [], c, h => by simp at h
  | a :: t, c, h => by
    rw [List.dropWhile_cons] at h
    split_ifs at h with ha
    · exact head?_dropWhile_not h
    · have : a = c := by simpa using h
      subst this
      simpa using ha

/-- Both trims have the length of a `dropWhile`. -/
theorem length_trimRightL_le (cs : List Char) : (trimRightL cs).length ≤ cs.length := by
  simpa [trimRightL] using length_dropWhile_le jsWs cs.reverse

/-- A trim-invariant list is invariant under each one-sided trim. -/
theorem trim_parts {cs : List Char} (h : trimL cs = cs) :
    trimLeftL cs = cs ∧ trimRightL cs = cs := by
  have hlen1 : (trimLeftL cs).length ≤ cs.length := length_dropWhile_le jsWs cs
  have hlen2 : (trimRightL (trimLeftL cs)).length ≤ (trimLeftL cs).length :=
    length_trimRightL_le _
  have hfull : (trimL cs).length = cs.length := by rw [h]
  have heq1 : (trimLeftL cs).length = cs.length := by
    simp only [trimL] at hfull
    omega
  have hL : trimLeftL cs = cs := dropWhile_eq_self_of_length heq1
  refine ⟨hL, ?_⟩
  have := h
  simp only [trimL, hL] at this
  exact this

/-- The identity trim from non-whitespace edges. -/
theorem trimL_eq_self {cs : List Char}
    (h1 : ∀ c, cs.head? = some c → jsWs c = false)
    (h2 : ∀ c, cs.getLast? = some c → jsWs c = false) : trimL cs = cs := by
  unfold trimL trimLeftL trimRightL
  rw [dropWhile_head_not h1, dropWhile_head_not (fun c hc => by
    rw [List.head?_reverse] at hc
    exact h2 c hc)]
  exact List.reverse_reverse cs

/-- The right trim alone from a non-whitespace last character. -/
theorem trimRightL_eq_self {cs : List Char}
    (h2 : ∀ c, cs.getLast? = some c → jsWs c = false) : trimRightL cs = cs := by
  unfold trimRightL
  rw [dropWhile_head_not (fun c hc => by
    rw [List.head?_reverse] at hc
    exact h2 c hc)]
  exact List.reverse_reverse cs

/-- The right trim of an append whose right part is right-trim-invariant and
non-empty. -/
theorem trimRightL_append {a b : List Char} (hb : trimRightL b = b) (hne : b ≠ []) :
    trimRightL (a ++ b) = a ++ b := by
  unfold trimRightL
  rw [List.reverse_append, List.dropWhile_append]
  have hbrev : b.reverse.dropWhile jsWs = b.reverse := by
    have : (b.reverse.dropWhile jsWs).reverse = b := hb
    calc b.reverse.dropWhile jsWs = ((b.reverse.dropWhile jsWs).reverse).reverse := by
          rw [List.reverse_reverse]
      _ = b.reverse := by rw [this]
  rw [hbrev]
  have : b.reverse.isEmpty = false := by
    simp [List.isEmpty_iff, hne]
  rw [this]
  simp [List.reverse_append]

/-! ## Escape-output facts (towards C5) -/

/-- Single-character replacement never shortens its input (replacements are
non-empty). -/
theorem length_replaceCharWithL_ge {c : Char} {r : List Char} (hr : r ≠ []) :
    ∀ cs : List Char, cs.length ≤ (replaceCharWithL c r cs).length
  | [] => Nat.le_refl 0
  | a :: t => by
    have ih := length_replaceCharWithL_ge (c := c) hr t
    simp only [replaceCharWithL, List.length_append]
    split_ifs with ha
    · have : 1 ≤ r.length := by
        cases r with
        | nil => exact absurd rfl hr
        | cons _ _ => simp
      simp only [List.length_cons]
      omega
    · simp only [List.length_cons, List.length_singleton]
      omega

/-- An untouched escape means the guard did not fire: the unquoted facts. -/
theorem yamlEscape_eq_self_facts {s : String} (h : yamlEscape s = s) :
    trimL s.data = s.data ∧ s.data ≠ [] ∧
    ('"' ∉ s.data) ∧ (Char.ofNat 39 ∉ s.data) ∧ ('|' ∉ s.data) ∧ ('>' ∉ s.data) := by
  by_cases hcond : (s.data.contains ':' || s.data.contains '#' ||
      s.data.contains (Char.ofNat 39) || s.data.contains '"' ||
      s.data.contains '{' || s.data.contains '}' || s.data.contains '[' ||
      s.data.contains ']' || s.data.contains '&' || s.data.contains '*' ||
      s.data.contains '!' || s.data.contains '|' || s.data.contains '>' ||
      s.data.contains '%' || s.data.contains '@' || s.data.contains (Char.ofNat 96) ||
      (trimL s.data != s.data) || s.data.isEmpty) = true
  · exfalso
    have hq : yamlEscape s =
        ⟨'"' :: (replaceCharWithL '"' ['\\', '"']
          (replaceCharWithL '\\' ['\\', '\\'] s.data) ++ ['"'])⟩ := by
      simp only [yamlEscape]
      rw [if_pos hcond]
    rw [hq] at h
    have hd : '"' :: (replaceCharWithL '"' ['\\', '"']
        (replaceCharWithL '\\' ['\\', '\\'] s.data) ++ ['"']) = s.data :=
      congrArg String.data h
    have h1 := length_replaceCharWithL_ge (c := '\\') (r := ['\\', '\\']) (by simp) s.data
    have h2 := length_replaceCharWithL_ge (c := '"') (r := ['\\', '"'])
      (by simp) (replaceCharWithL '\\' ['\\', '\\'] s.data)
    have hlen := congrArg List.length hd
    simp only [List.length_cons, List.length_append, List.length_singleton] at hlen
    omega
  · have hfacts := hcond
    simp only [Bool.or_eq_true, not_or, Bool.not_eq_true] at hfacts
    obtain ⟨⟨⟨⟨⟨⟨⟨⟨⟨⟨⟨⟨⟨⟨⟨⟨⟨hc1, hc2⟩, hc3⟩, hc4⟩, hc5⟩, hc6⟩, hc7⟩, hc8⟩,
      hc9⟩, hc10⟩, hc11⟩, hc12⟩, hc13⟩, hc14⟩, hc15⟩, hc16⟩, htrim⟩, hemp⟩ := hfacts
    refine ⟨?_, ?_, ?_, ?_, ?_, ?_⟩
    · simpa using htrim
    · simpa [List.isEmpty_iff] using hemp
    · simpa using hc4
    · simpa using hc3
    · simpa using hc12
    · simpa using hc13

/-- The escaper's output facts needed for the round trip: it is untouched by
the trims the parser applies, non-empty, distinct from the block-marker
values, quote-stripping recovers the original, and it contains no newline. -/
theorem yamlEscape_facts {s : String} (hgs : goodScalar s = true) :
    (yamlEscape s).data.dropWhile jsWs = (yamlEscape s).data ∧
    trimRightL (yamlEscape s).data = (yamlEscape s).data ∧
    (yamlEscape s).data ≠ [] ∧
    (yamlEscape s).data ≠ ['|'] ∧ (yamlEscape s).data ≠ ['>'] ∧
    stripQuotes (yamlEscape s).data = s.data ∧
    ('\n' ∉ (yamlEscape s).data) := by
  have hgs' : ('"' ∉ s.data) ∧ ('\\' ∉ s.data) ∧ ('\n' ∉ s.data) := by
    simp only [goodScalar, Bool.and_eq_true] at hgs
    refine ⟨?_, ?_, ?_⟩ <;> simp_all
  by_cases hcond : (s.data.contains ':' || s.data.contains '#' ||
      s.data.contains (Char.ofNat 39) || s.data.contains '"' ||
      s.data.contains '{' || s.data.contains '}' || s.data.contains '[' ||
      s.data.contains ']' || s.data.contains '&' || s.data.contains '*' ||
      s.data.contains '!' || s.data.contains '|' || s.data.contains '>' ||
      s.data.contains '%' || s.data.contains '@' || s.data.contains (Char.ofNat 96) ||
      (trimL s.data != s.data) || s.data.isEmpty) = true
  · have hq : (yamlEscape s).data = '"' :: (s.data ++ ['"']) := by
      simp only [yamlEscape]
      rw [if_pos hcond]
      show '"' :: (replaceCharWithL '"' ['\\', '"']
        (replaceCharWithL '\\' ['\\', '\\'] s.data) ++ ['"']) = _
      rw [replaceCharWithL_eq_self hgs'.2.1, replaceCharWithL_eq_self hgs'.1]
    rw [hq]
    refine ⟨?_, ?_, ?_, ?_, ?_, ?_, ?_⟩
    · exact dropWhile_head_not (fun c hc => by
        have : c = '"' := by simpa using hc.symm
        subst this
        decide)
    · exact trimRightL_eq_self (fun c hc => by
        rw [show ('"' :: (s.data ++ ['"'])) = ('"' :: s.data) ++ ['"'] from rfl,
          List.getLast?_concat] at hc
        have : c = '"' := by simpa using hc.symm
        subst this
        decide)
    · simp
    · intro hcontra
      have : '"' = '|' := by
        have := congrArg (fun l => l.head?) hcontra
        simpa using this
      exact absurd this (by decide)
    · intro hcontra
      have : '"' = '>' := by
        have := congrArg (fun l => l.head?) hcontra
        simpa using this
      exact absurd this (by decide)
    · have hlast : ('"' :: (s.data ++ ['"'])).getLast? = some '"' := by
        rw [show ('"' :: (s.data ++ ['"'])) = ('"' :: s.data) ++ ['"'] from rfl,
          List.getLast?_concat]
      simp only [stripQuotes]
      rw [if_pos ?_]
      · show ((s.data ++ ['"']).drop 0).dropLast = s.data
        rw [List.drop_zero, List.dropLast_concat]
      · refine ⟨by simp, Or.inl ⟨rfl, hlast⟩⟩
    · intro hmem
      rcases List.mem_cons.mp hmem with h1 | h1
      · exact absurd h1 (by decide)
      · rcases List.mem_append.mp h1 with h2 | h2
        · exact hgs'.2.2 h2
        · have : '\n' = '"' := by simpa using h2
          exact absurd this (by decide)
  · have hu : yamlEscape s = s := by
      simp only [yamlEscape]
      rw [if_neg hcond]
    have hfacts := yamlEscape_eq_self_facts hu
    obtain ⟨htrim, hne, hq, hsq, hpipe, hgt⟩ := hfacts
    rw [hu]
    refine ⟨(trim_parts htrim).1, (trim_parts htrim).2, hne, ?_, ?_, ?_, hgs'.2.2⟩
    · intro hcontra
      exact hpipe (by rw [hcontra]; simp)
    · intro hcontra
      exact hgt (by rw [hcontra]; simp)
    · simp only [stripQuotes]
      rw [if_neg ?_]
      rintro ⟨-, hor⟩
      rcases hor with ⟨hh, -⟩ | ⟨hh, -⟩
      · exact hq (List.mem_of_mem_head? (by simp [hh]))
      · exact hsq (List.mem_of_mem_head? (by simp [hh]))

/-! ## Line-level behaviour of the parsing loop (towards C5) -/

/-- First colon of a key line sits right after the key. -/
theorem findIdx?_colon {kd : List Char} (h : ':' ∉ kd) (rest : List Char) :
    ∀ i, List.findIdx? (fun c => c == ':') (kd ++ ':' :: rest) i = some (i + kd.length) := by
  induction kd with
  | nil => intro i; simp [List.findIdx?_cons]
  | cons c t ih =>
    intro i
    have hc : (c == ':') = false := by
      simp only [beq_eq_false_iff_ne, ne_eq]
      rintro rfl
      exact h (List.mem_cons_self _ _)
    have h' : ':' ∉ t := fun hm => h (List.mem_cons_of_mem _ hm)
    rw [List.cons_append, List.findIdx?_cons, if_neg (by simp [hc]),
      (by exact ih h' (i + 1) : List.findIdx? (fun c => c == ':') (t ++ ':' :: rest) (i + 1)
        = some (i + 1 + t.length))]
    simp only [List.length_cons]
    congr 1
    omega

/-- A key line never opens like a comment. -/
theorem keyLine_not_comment {kd : List Char} (hkne : kd ≠ [])
    (h : startsWithL kd ['#'] = false) (rest : List Char) :
    startsWithL (kd ++ rest) ['#'] = false := by
  cases kd with
  | nil => exact absurd rfl hkne
  | cons c t =>
    simp only [startsWithL, List.isPrefixOf, Bool.and_eq_false_iff] at h ⊢
    rcases h with h | h
    · exact Or.inl h
    · simp at h

/-- A key line never opens like a list item. -/
theorem keyLine_not_item {kd : List Char} (hkne : kd ≠ [])
    (h : startsWithL kd ['-', ' '] = false) (rest : List Char) :
    startsWithL (kd ++ ':' :: rest) ['-', ' '] = false := by
  cases kd with
  | nil => exact absurd rfl hkne
  | cons c t =>
    cases t with
    | nil =>
      simp [startsWithL, List.isPrefixOf]
    | cons d t' =>
      simp only [startsWithL, List.isPrefixOf, List.cons_append] at h ⊢
      simpa using h

/-- A key line never opens like a marker line. -/
theorem keyLine_not_marker {kd : List Char} (hkne : kd ≠ [])
    (h : startsWithL kd ['-', '-', '-'] = false) (rest : List Char) :
    startsWithL (kd ++ ':' :: rest) ['-', '-', '-'] = false := by
  cases kd with
  | nil => exact absurd rfl hkne
  | cons a t =>
    cases t with
    | nil => simp [startsWithL, List.isPrefixOf]
    | cons b t' =>
      cases t' with
      | nil => simp [startsWithL, List.isPrefixOf]
      | cons c t'' =>
        simp only [startsWithL, List.isPrefixOf, List.cons_append] at h ⊢
        simpa using h

/-- Components of a good key. -/
theorem goodKey_facts {k : String} (hk : goodKey k = true) :
    k.data ≠ [] ∧
    (∀ c, k.data.head? = some c → jsWs c = false) ∧
    (∀ c, k.data.getLast? = some c → jsWs c = false) ∧
    (':' ∉ k.data) ∧ ('\n' ∉ k.data) ∧
    startsWithL k.data ['#'] = false ∧ startsWithL k.data ['-', ' '] = false ∧
    startsWithL k.data ['-', '-', '-'] = false := by
  simp only [goodKey, Bool.and_eq_true] at hk
  obtain ⟨⟨⟨⟨⟨⟨h1, h2⟩, h3⟩, h4⟩, h5⟩, h6⟩, h7⟩ := hk
  simp only [edgeOkL, Bool.and_eq_true] at h2
  refine ⟨by simpa [List.isEmpty_iff] using h1, ?_, ?_, by simpa using h3,
    by simpa using h4, by simpa using h5, by simpa using h6, by simpa using h7⟩
  · intro c hc
    have := h2.1
    rw [hc] at this
    simpa using this
  · intro c hc
    have := h2.2
    rw [hc] at this
    simpa using this

/-- A key line (key, colon, anything trim-invariant and non-empty after it)
is trim-invariant. -/
theorem keyLine_trim {kd rest : List Char}
    (hhead : ∀ c, kd.head? = some c → jsWs c = false) (hkne : kd ≠ [])
    (hrest : trimRightL rest = rest) (hrne : rest ≠ []) :
    trimL (kd ++ rest) = kd ++ rest := by
  unfold trimL
  have h1 : trimLeftL (kd ++ rest) = kd ++ rest := by
    unfold trimLeftL
    refine dropWhile_head_not (fun c hc => ?_)
    cases kd with
    | nil => exact absurd rfl hkne
    | cons a t =>
      have : a = c := by simpa using hc
      subst this
      exact hhead a rfl
  rw [h1]
  exact trimRightL_append hrest hrne

/-- Behaviour of the parsing loop on a scalar property line. -/
theorem parseLine_scalar {k s : String} (st : ParseSt)
    (hk : goodKey k = true) (hs : goodScalar s = true) :
    parseLine st ((k ++ ": " ++ yamlEscape s).data) =
      { props := setAssoc (flushArray st) k (.str s),
        currentKey := some k, arrayValues := st.arrayValues, inArray := false } := by
  obtain ⟨hkne, hkhead, hklast, hkcolon, _, hkc, hki, _⟩ := goodKey_facts hk
  obtain ⟨hedw, hetr, hene, hepipe, hegt, hestrip, _⟩ := yamlEscape_facts hs
  have hline : (k ++ ": " ++ yamlEscape s).data =
      k.data ++ ':' :: ' ' :: (yamlEscape s).data := by
    simp [String.data_append, List.append_assoc]
  have htrim : trimL (k.data ++ ':' :: ' ' :: (yamlEscape s).data) =
      k.data ++ ':' :: ' ' :: (yamlEscape s).data := by
    refine keyLine_trim hkhead hkne ?_ (by simp)
    show trimRightL ([':', ' '] ++ (yamlEscape s).data) = _
    exact trimRightL_append hetr hene
  have hfind : List.findIdx? (fun c => c == ':')
      (k.data ++ ':' :: ' ' :: (yamlEscape s).data) 0 = some k.data.length := by
    have := findIdx?_colon hkcolon (' ' :: (yamlEscape s).data) 0
    simpa using this
  have htake : (k.data ++ ':' :: ' ' :: (yamlEscape s).data).take k.data.length = k.data :=
    List.take_left _ _
  have hdrop : (k.data ++ ':' :: ' ' :: (yamlEscape s).data).drop (k.data.length + 1) =
      ' ' :: (yamlEscape s).data := by
    rw [show k.data ++ ':' :: ' ' :: (yamlEscape s).data =
      (k.data ++ [':']) ++ ' ' :: (yamlEscape s).data by simp,
      show k.data.length + 1 = (k.data ++ [':']).length by simp]
    exact List.drop_left _ _
  have hktrim : trimL k.data = k.data := trimL_eq_self hkhead hklast
  have hvtrim : trimL (' ' :: (yamlEscape s).data) = (yamlEscape s).data := by
    unfold trimL trimLeftL
    rw [List.dropWhile_cons, if_pos (by decide), hedw]
    exact hetr
  rw [hline]
  simp only [parseLine]
  rw [htrim]
  rw [if_neg (by simp [hkne]), if_neg ?_, if_neg ?_]
  · rw [hfind]
    dsimp only
    rw [if_pos (List.length_pos.mpr hkne), hdrop, hvtrim, htake, hktrim,
      if_neg (by push_neg; exact ⟨hene, hepipe, hegt⟩), hestrip]
  · simp [keyLine_not_item hkne hki (' ' :: (yamlEscape s).data)]
  · simp [keyLine_not_comment hkne hkc (':' :: ' ' :: (yamlEscape s).data)]

/-- Behaviour of the parsing loop on the key line of a list property. -/
theorem parseLine_listKey {k : String} (st : ParseSt) (hk : goodKey k = true) :
    parseLine st ((k ++ ":").data) =
      { props := flushArray st, currentKey := some k,
        arrayValues := [], inArray := true } := by
  obtain ⟨hkne, hkhead, hklast, hkcolon, _, hkc, hki, _⟩ := goodKey_facts hk
  have hline : (k ++ ":").data = k.data ++ [':'] := by
    simp [String.data_append]
  have htrim : trimL (k.data ++ [':']) = k.data ++ [':'] := by
    refine keyLine_trim hkhead hkne ?_ (by simp)
    exact trimRightL_eq_self (fun c hc => by
      have : c = ':' := by simpa using hc.symm
      subst this
      decide)
  have hfind : List.findIdx? (fun c => c == ':') (k.data ++ [':']) 0 =
      some k.data.length := by
    have := findIdx?_colon hkcolon [] 0
    simpa using this
  have htake : (k.data ++ [':']).take k.data.length = k.data := List.take_left _ _
  have hdrop : (k.data ++ [':']).drop (k.data.length + 1) = [] := by
    rw [show k.data.length + 1 = (k.data ++ [':']).length by simp]
    exact List.drop_length _
  have hktrim : trimL k.data = k.data := trimL_eq_self hkhead hklast
  rw [hline]
  simp only [parseLine]
  rw [htrim]
  rw [if_neg (by simp [hkne]), if_neg ?_, if_neg ?_]
  · rw [hfind]
    dsimp only
    rw [if_pos (List.length_pos.mpr hkne), hdrop, htake, hktrim]
    rw [if_pos (by simp [trimL, trimLeftL, trimRightL])]
  · simp [keyLine_not_item hkne hki []]
  · simp [keyLine_not_comment hkne hkc [':']]

/-- Behaviour of the parsing loop on a list item line. -/
theorem parseLine_item {e : String} {props : List (String × YamlVal)} {key : String}
    {acc : List String} (he : goodElem e = true) :
    parseLine ⟨props, some key, acc, true⟩ (("  - " ++ yamlEscape e).data) =
      ⟨props, some key, acc ++ [e], true⟩ := by
  have heq : yamlEscape e = e := by
    simp only [goodElem, Bool.and_eq_true] at he
    exact beq_iff_eq.mp he.1
  obtain ⟨hetrim, hene, -, -, -, -⟩ := yamlEscape_eq_self_facts heq
  have hline : ("  - " ++ yamlEscape e).data = ' ' :: ' ' :: '-' :: ' ' :: e.data := by
    rw [heq, String.data_append]
    rfl
  have htrim : trimL (' ' :: ' ' :: '-' :: ' ' :: e.data) = '-' :: ' ' :: e.data := by
    unfold trimL trimLeftL
    rw [List.dropWhile_cons, if_pos (by decide), List.dropWhile_cons, if_pos (by decide),
      List.dropWhile_cons, if_neg (by decide)]
    show trimRightL (['-', ' '] ++ e.data) = _
    exact trimRightL_append (trim_parts hetrim).2 hene
  rw [hline]
  simp only [parseLine]
  rw [htrim]
  rw [if_neg (by simp), if_neg (by simp [startsWithL, List.isPrefixOf]),
    if_pos (by simp [startsWithL, List.isPrefixOf])]
  rw [if_pos (by simp)]
  have hfin : trimL (('-' :: ' ' :: e.data).drop 2) = e.data := by
    show trimL e.data = e.data
    exact hetrim
  rw [hfin]

/-! ## The parsing loop over a formatted block (towards C5) -/

/-- Setting a fresh key appends. -/
theorem setAssoc_of_getAssoc_none {α : Type} {m : List (String × α)} {k : String} (v : α)
    (h : getAssoc m k = none) : setAssoc m k v = m ++ [(k, v)] := by
  have hfind : m.find? (fun p => p.1 == k) = none := by
    simp only [getAssoc] at h
    cases hf : m.find? (fun p => p.1 == k) with
    | none => rfl
    | some p => rw [hf] at h; simp at h
  have hany : ¬ (m.any (fun p => p.1 == k) = true) := by
    rw [List.any_eq_true]
    rintro ⟨p, hp, hpk⟩
    exact absurd hpk (List.find?_eq_none.mp hfind p hp)
  simp [setAssoc, hany]

/-- Item lines extend the pending list in order. -/
theorem foldl_parseLine_items {key : String} {props : List (String × YamlVal)} :
    ∀ (l : List String) (acc : List String), (∀ e ∈ l, goodElem e = true) →
      (l.map (fun e => ("  - " ++ yamlEscape e).data)).foldl parseLine
          ⟨props, some key, acc, true⟩ =
        ⟨props, some key, acc ++ l, true⟩
  | [], acc, _ => by simp
  | e :: t, acc, h => by
    rw [List.map_cons, List.foldl_cons, parseLine_item (h e (List.mem_cons_self e t)),
      foldl_parseLine_items t (acc ++ [e]) (fun x hx => h x (List.mem_cons_of_mem _ hx))]
    simp

/-- The parsing loop over the formatted lines of a good, fresh property list
appends exactly those properties (in order) to the flushed state. -/
theorem parse_props :
    ∀ (ps : List (String × YamlVal)) (st : ParseSt),
      (∀ p ∈ ps, goodKey p.1 = true ∧ goodVal p.2 = true) →
      (ps.map Prod.fst).Nodup →
      (∀ p ∈ ps, getAssoc (flushArray st) p.1 = none) →
      flushArray (((ps.map propLines).flatten).foldl parseLine st) = flushArray st ++ ps
  | [], st, _, _, _ => by simp
  | (k, v) :: ps', st, hgood, hnodup, hfresh => by
    rw [List.map_cons, List.flatten_cons, List.foldl_append]
    obtain ⟨hk, hv⟩ := hgood (k, v) (List.mem_cons_self _ _)
    have hnodup' : (ps'.map Prod.fst).Nodup := (List.nodup_cons.mp hnodup).2
    have hknotin : k ∉ ps'.map Prod.fst := (List.nodup_cons.mp hnodup).1
    have hkey_ne : ∀ p ∈ ps', p.1 ≠ k := by
      intro p hp he
      exact hknotin (he ▸ List.mem_map_of_mem Prod.fst hp)
    cases v with
    | str s =>
      simp only [propLines]
      rw [List.foldl_cons, List.foldl_nil, parseLine_scalar st hk hv]
      have hflush' : flushArray
          { props := setAssoc (flushArray st) k (.str s), currentKey := some k,
            arrayValues := st.arrayValues, inArray := false } =
          flushArray st ++ [(k, YamlVal.str s)] := by
        show setAssoc (flushArray st) k (.str s) = _
        exact setAssoc_of_getAssoc_none _ (hfresh (k, .str s) (List.mem_cons_self _ _))
      rw [parse_props ps' _ (fun p hp => hgood p (List.mem_cons_of_mem _ hp)) hnodup'
        (fun p hp => by
          rw [hflush', getAssoc_append, hfresh p (List.mem_cons_of_mem _ hp)]
          simp [getAssoc_cons, getAssoc, Ne.symm (hkey_ne p hp)]), hflush']
      simp
    | list l =>
      have hlv : l ≠ [] ∧ ∀ e ∈ l, goodElem e = true := by
        simp only [goodVal, Bool.and_eq_true] at hv
        constructor
        · simpa [List.isEmpty_iff] using hv.1
        · intro e he
          exact List.all_eq_true.mp hv.2 e he
      simp only [propLines]
      rw [List.foldl_cons, parseLine_listKey st hk, foldl_parseLine_items l [] hlv.2]
      have hflush' : flushArray
          { props := flushArray st, currentKey := some k,
            arrayValues := [] ++ l, inArray := true } =
          flushArray st ++ [(k, YamlVal.list l)] := by
        simp only [flushArray, List.nil_append]
        rw [if_pos hlv.1]
        exact setAssoc_of_getAssoc_none _ (hfresh (k, .list l) (List.mem_cons_self _ _))
      rw [parse_props ps' _ (fun p hp => hgood p (List.mem_cons_of_mem _ hp)) hnodup'
        (fun p hp => by
          rw [hflush', getAssoc_append, hfresh p (List.mem_cons_of_mem _ hp)]
          simp [getAssoc_cons, getAssoc, Ne.symm (hkey_ne p hp)]), hflush']
      simp

/-! ## Decomposition of the formatted header (towards C5) -/

/-- joining newline-terminated lines distributes over append. -/
theorem unlines_append (L1 L2 : List (List Char)) :
    unlines (L1 ++ L2) = unlines L1 ++ unlines L2 := by
  simp [unlines]

/-- joining newline-terminated lines unfolds on cons. -/
theorem unlines_cons (l : List Char) (L : List (List Char)) :
    unlines (l :: L) = l ++ '\n' :: unlines L := by
  simp [unlines]

/-- One formatted property is exactly its contributed lines, each
newline-terminated. -/
theorem formatYamlProperty_data (p : String × YamlVal) :
    (formatYamlProperty p.1 p.2).data = unlines (propLines p) := by
  obtain ⟨k, v⟩ := p
  cases v with
  | str s =>
    show (k ++ ": " ++ yamlEscape s ++ "\n").data = _
    simp only [propLines]
    rw [unlines_cons]
    simp [String.data_append, unlines]
  | list l =>
    show (k ++ ":\n" ++ String.join (l.map (fun e => "  - " ++ yamlEscape e ++ "\n"))).data = _
    simp only [propLines]
    rw [unlines_cons]
    simp only [String.data_append, String.join_eq, unlines, List.map_map]
    simp only [Function.comp, String.data_append, List.append_assoc, List.cons_append,
      List.singleton_append, List.nil_append]
    rfl

/-- The header text decomposes into the opening marker, the property lines
and the closing marker. -/
theorem formatHeader_data (props : List (String × YamlVal)) :
    (formatHeader props).data =
      '-' :: '-' :: '-' :: '\n' ::
        (unlines ((props.map propLines).flatten) ++ ['-', '-', '-', '\n', '\n']) := by
  have hjoin : ∀ ps : List (String × YamlVal),
      (String.join (ps.map (fun p => formatYamlProperty p.1 p.2))).data =
        unlines ((ps.map propLines).flatten) := by
    intro ps
    induction ps with
    | nil => rfl
    | cons p t ih =>
      rw [List.map_cons, join_cons, String.data_append, ih, List.map_cons,
        List.flatten_cons, unlines_append, formatYamlProperty_data]
  show ("---\n" ++ String.join (props.map (fun p => formatYamlProperty p.1 p.2)) ++ "---\n\n").data = _
  rw [String.data_append, String.data_append, hjoin]
  rfl

/-- A line of the shape key-colon-tail never begins the closing marker, for a
good key. -/
theorem keyline_no_marker (kd : List Char) (t : List Char) (hne : kd ≠ [])
    (hk3 : startsWithL kd ['-', '-', '-'] = false) :
    ['-', '-', '-'].isPrefixOf (kd ++ ':' :: t) = false := by
  cases kd with
  | nil => exact absurd rfl hne
  | cons a t1 =>
    cases t1 with
    | nil => simp [List.isPrefixOf]
    | cons b t2 =>
      cases t2 with
      | nil => simp [List.isPrefixOf]
      | cons c t3 =>
        simp only [startsWithL, List.isPrefixOf, Bool.and_eq_false_iff] at hk3
        simp only [List.cons_append, List.isPrefixOf, List.isPrefixOf.eq_1,
          Bool.and_eq_false_iff]
        rcases hk3 with h | h
        · exact Or.inl h
        · rcases h with h | h
          · exact Or.inr (Or.inl h)
          · rcases h with h | h
            · exact Or.inr (Or.inr (Or.inl h))
            · simp at h

/-- A line beginning with a space never begins the closing marker. -/
theorem space_no_marker (t : List Char) :
    ['-', '-', '-'].isPrefixOf (' ' :: t) = false := by
  simp [List.isPrefixOf]

/-- Every line a good property contributes is newline-free and never begins
the closing marker. -/
theorem propLines_facts {p : String × YamlVal} (hk : goodKey p.1 = true)
    (hv : goodVal p.2 = true) :
    ∀ l ∈ propLines p, (∀ c ∈ l, c ≠ '\n') ∧
      (∀ r, ['-', '-', '-'].isPrefixOf (l ++ r) = false) := by
  obtain ⟨k, v⟩ := p
  obtain ⟨hkne, -, -, -, hknl, -, -, hk3⟩ := goodKey_facts hk
  cases v with
  | str s =>
    have hsnl : '\n' ∉ (yamlEscape s).data := (yamlEscape_facts (by simpa using hv)).2.2.2.2.2.2
    intro l hl
    simp only [propLines, List.mem_singleton] at hl
    subst hl
    have hdata : (k ++ ": " ++ yamlEscape s).data =
        k.data ++ ':' :: ' ' :: (yamlEscape s).data := by
      simp [String.data_append, List.append_assoc]
    rw [hdata]
    constructor
    · intro c hc
      rcases List.mem_append.mp hc with h | h
      · exact fun he => hknl (he ▸ h)
      · simp only [List.mem_cons] at h
        rcases h with rfl | rfl | h
        · decide
        · decide
        · exact fun he => hsnl (he ▸ h)
    · intro r
      rw [List.append_assoc]
      exact keyline_no_marker k.data _ hkne hk3
  | list l' =>
    have hlv : ∀ e ∈ l', goodElem e = true := by
      simp only [goodVal, Bool.and_eq_true] at hv
      exact fun e he => List.all_eq_true.mp hv.2 e he
    intro l hl
    simp only [propLines, List.mem_cons] at hl
    rcases hl with heq | hmem
    · subst heq
      have hdata : (k ++ ":").data = k.data ++ [':'] := by
        simp [String.data_append]
      rw [hdata]
      constructor
      · intro c hc
        rcases List.mem_append.mp hc with h | h
        · exact fun he => hknl (he ▸ h)
        · simp only [List.mem_singleton] at h
          subst h
          decide
      · intro r
        rw [List.append_assoc, List.singleton_append]
        exact keyline_no_marker k.data _ hkne hk3
    · obtain ⟨e, hel, hle⟩ := List.mem_map.mp hmem
      have he := hlv e hel
      have heq : yamlEscape e = e := by
        simp only [goodElem, Bool.and_eq_true] at he
        exact beq_iff_eq.mp he.1
      have henl : '\n' ∉ e.data := by
        simp only [goodElem, Bool.and_eq_true] at he
        simpa using he.2
      have hdata : ("  - " ++ yamlEscape e).data = ' ' :: ' ' :: '-' :: ' ' :: e.data := by
        rw [heq, String.data_append]
        rfl
      subst hle
      rw [hdata]
      constructor
      · intro c hc
        simp only [List.mem_cons] at hc
        rcases hc with rfl | rfl | rfl | rfl | h
        · decide
        · decide
        · decide
        · decide
        · exact fun hhe => henl (hhe ▸ h)
      · intro r
        exact space_no_marker _

/-- The marker search walks past a newline-free stretch unchanged. -/
theorem indexOfAux_skip :
    ∀ (line rest : List Char) (i : Nat), (∀ c ∈ line, c ≠ '\n') →
      indexOfAux ['\n', '-', '-', '-'] (line ++ rest) i =
        indexOfAux ['\n', '-', '-', '-'] rest (i + line.length)
  | [], rest, i, _ => by simp
  | c :: t, rest, i, h => by
    rw [List.cons_append]
    simp only [indexOfAux]
    rw [if_neg ?_]
    · rw [indexOfAux_skip t rest (i + 1) (fun x hx => h x (List.mem_cons_of_mem _ hx))]
      congr 1
      simp only [List.length_cons]
      omega
    · intro hpre
      simp only [List.isPrefixOf, Bool.and_eq_true, beq_iff_eq] at hpre
      exact h c (List.mem_cons_self _ _) hpre.1.symm

/-- The marker search over the property block finds exactly the newline that
precedes the closing marker. -/
theorem findMarker :
    ∀ (L : List (List Char)) (rest : List Char) (i : Nat),
      (∀ l ∈ L, (∀ c ∈ l, c ≠ '\n') ∧
        (∀ r, ['-', '-', '-'].isPrefixOf (l ++ r) = false)) →
      indexOfAux ['\n', '-', '-', '-']
          ('\n' :: (unlines L ++ '-' :: '-' :: '-' :: rest)) i =
        some (i + (unlines L).length)
  | [], rest, i, _ => by
    simp only [unlines, List.map_nil, List.flatten_nil, List.nil_append, List.length_nil,
      Nat.add_zero]
    simp only [indexOfAux]
    rw [if_pos (by simp [List.isPrefixOf])]
  | l :: T, rest, i, h => by
    have hl := h l (List.mem_cons_self _ _)
    rw [unlines_cons, List.append_assoc, List.cons_append]
    simp only [indexOfAux]
    rw [if_neg ?_]
    · rw [indexOfAux_skip l ('\n' :: (unlines T ++ '-' :: '-' :: '-' :: rest)) (i + 1) hl.1,
        findMarker T rest (i + 1 + l.length) (fun x hx => h x (List.mem_cons_of_mem _ hx))]
      congr 1
      simp only [List.length_append, List.length_cons]
      omega
    · intro hpre
      simp only [List.isPrefixOf, Bool.and_eq_true] at hpre
      have h2 := hl.2 ('\n' :: (unlines T ++ '-' :: '-' :: '-' :: rest))
      rw [h2] at hpre
      exact absurd hpre.2 (by decide)

/-! ## Round trip of the frontmatter codec (C5) -/

/-- Intercalation of a single line. -/
theorem intercalate_single (l : List Char) : List.intercalate ['\n'] [l] = l := by
  simp [List.intercalate]

/-- Intercalation unfolds on two or more lines. -/
theorem intercalate_cons2 (l m : List Char) (T : List (List Char)) :
    List.intercalate ['\n'] (l :: m :: T) = l ++ '\n' :: List.intercalate ['\n'] (m :: T) := by
  simp [List.intercalate, List.intersperse]

/-- The newline-terminated join is the intercalation plus one trailing
newline. -/
theorem unlines_eq_intercalate :
    ∀ (L : List (List Char)), L ≠ [] →
      unlines L = List.intercalate ['\n'] L ++ ['\n']
  | [], h => absurd rfl h
  | [l], _ => by
    rw [intercalate_single, unlines_cons]
    simp [unlines]
  | l :: m :: T, _ => by
    rw [unlines_cons, unlines_eq_intercalate (m :: T) (by simp), intercalate_cons2]
    simp

/-- Parsing a formatted header of good, distinct properties prepended to any
body recovers the property map exactly; the body offset lands on the blank
line after the closing marker. -/
theorem parse_format_props (props : List (String × YamlVal)) (body : String)
    (hgood : ∀ p ∈ props, goodKey p.1 = true ∧ goodVal p.2 = true)
    (hnodup : (props.map Prod.fst).Nodup) :
    parseFrontmatter (formatHeader props ++ body) =
      ⟨props, (unlines ((props.map propLines).flatten)).length + 7⟩ := by
  have hfacts : ∀ l ∈ (props.map propLines).flatten,
      (∀ c ∈ l, c ≠ '\n') ∧ (∀ r, ['-', '-', '-'].isPrefixOf (l ++ r) = false) := by
    intro l hl
    obtain ⟨ls, hls, hlin⟩ := List.mem_flatten.mp hl
    obtain ⟨q, hq, rfl⟩ := List.mem_map.mp hls
    exact propLines_facts (hgood q hq).1 (hgood q hq).2 l hlin
  have hdata : (formatHeader props ++ body).data =
      '-' :: '-' :: '-' :: '\n' ::
        (unlines ((props.map propLines).flatten) ++
          '-' :: '-' :: '-' :: '\n' :: '\n' :: body.data) := by
    rw [String.data_append, formatHeader_data]
    simp [List.append_assoc]
  have hsw : startsWithL ((formatHeader props ++ body).data) ['-', '-', '-'] = true := by
    rw [hdata]
    simp [startsWithL, List.isPrefixOf]
  have hidx : indexOfFrom ((formatHeader props ++ body).data) ['\n', '-', '-', '-'] 3 =
      some (3 + (unlines ((props.map propLines).flatten)).length) := by
    rw [hdata]
    exact findMarker _ ('\n' :: '\n' :: body.data) 3 hfacts
  unfold parseFrontmatter
  simp only [hsw, hidx, eq_self_iff_true, not_true, if_false]
  rw [hdata]
  by_cases hP : props = []
  · subst hP
    simp only [List.map_nil, List.flatten_nil, unlines, List.length_nil, Nat.add_zero,
      jsSubstringL]
    have hmax : max 4 3 = 4 := by decide
    have hmin : min 4 3 = 3 := by decide
    rw [hmax, hmin,
      show ∀ rest : List Char, ('-' :: '-' :: '-' :: '\n' :: rest).take 4 =
        ['-', '-', '-', '\n'] from fun rest => rfl]
    decide
  · have hLne : (props.map propLines).flatten ≠ [] := by
      cases props with
      | nil => exact absurd rfl hP
      | cons q qs =>
        obtain ⟨k, v⟩ := q
        cases v <;> simp [propLines]
    have hunl : unlines ((props.map propLines).flatten) =
        List.intercalate ['\n'] ((props.map propLines).flatten) ++ ['\n'] :=
      unlines_eq_intercalate _ hLne
    have hnl : ∀ l ∈ (props.map propLines).flatten, '\n' ∉ l := by
      intro l hl h
      exact (hfacts l hl).1 '\n' h rfl
    have hsplit : List.splitOn '\n'
        (List.intercalate ['\n'] ((props.map propLines).flatten)) =
        (props.map propLines).flatten :=
      List.splitOn_intercalate _ '\n' hnl hLne
    have hlen : (unlines ((props.map propLines).flatten)).length =
        (List.intercalate ['\n'] ((props.map propLines).flatten)).length + 1 := by
      rw [hunl]
      simp
    have hmin : min 4 (3 + (unlines ((props.map propLines).flatten)).length) = 4 := by
      omega
    have hmax : max 4 (3 + (unlines ((props.map propLines).flatten)).length) =
        4 + (List.intercalate ['\n'] ((props.map propLines).flatten)).length := by
      omega
    have hshape : '-' :: '-' :: '-' :: '\n' ::
        (unlines ((props.map propLines).flatten) ++
          '-' :: '-' :: '-' :: '\n' :: '\n' :: body.data) =
        ('-' :: '-' :: '-' :: '\n' ::
            List.intercalate ['\n'] ((props.map propLines).flatten)) ++
          ('\n' :: '-' :: '-' :: '-' :: '\n' :: '\n' :: body.data) := by
      rw [hunl]
      simp [List.append_assoc]
    have htake : (('-' :: '-' :: '-' :: '\n' ::
            List.intercalate ['\n'] ((props.map propLines).flatten)) ++
          ('\n' :: '-' :: '-' :: '-' :: '\n' :: '\n' :: body.data)).take
          (4 + (List.intercalate ['\n'] ((props.map propLines).flatten)).length) =
        '-' :: '-' :: '-' :: '\n' ::
          List.intercalate ['\n'] ((props.map propLines).flatten) := by
      have hlen4 : ('-' :: '-' :: '-' :: '\n' ::
          List.intercalate ['\n'] ((props.map propLines).flatten)).length =
          4 + (List.intercalate ['\n'] ((props.map propLines).flatten)).length := by
        simp only [List.length_cons]
        omega
      rw [← hlen4]
      exact List.take_left _ _
    simp only [jsSubstringL]
    rw [hmin, hmax, hshape, htake,
      show ('-' :: '-' :: '-' :: '\n' ::
          List.intercalate ['\n'] ((props.map propLines).flatten)).drop 4 =
        List.intercalate ['\n'] ((props.map propLines).flatten) from rfl,
      hsplit, parse_props props ⟨[], none, [], false⟩ hgood hnodup (fun p _ => rfl)]
    simp only [ParsedFrontmatter.mk.injEq, flushArray]
    refine ⟨by simp, by omega⟩

/-- C5 counterexample: a scalar value consisting of one double quote is
escaped on the way out but never unescaped on the way back, so the parsed map
differs from the original by an inserted backslash — a change not covered by
whitespace-trim or quote-stripping symmetry. -/
theorem c5_counterexample :
    (parseFrontmatter (formatHeader c5Props ++ "body")).properties ≠ c5Props := by
  decide

/-- C5 amended: for every property map whose keys are non-empty, trimmed,
free of colon and newline, not opening like a comment, a list item or a
marker line, and pairwise distinct, and whose values are scalars free of
double quote, backslash and newline or non-empty lists of newline-free
elements the escaper leaves untouched, parsing the formatted header prepended
to any body reproduces the property map exactly — no trim or quote modulus is
needed.  Newline-freedom of list elements is essential: the escaper leaves a
string with an interior newline unchanged, so a formatted item line splits in
two and the tail lines are dropped by the parser. -/
theorem c5_amended (props : List (String × YamlVal)) (body : String)
    (hgood : ∀ p ∈ props, goodKey p.1 = true ∧ goodVal p.2 = true)
    (hnodup : (props.map Prod.fst).Nodup) :
    (parseFrontmatter (formatHeader props ++ body)).properties = props := by
  rw [parse_format_props props body hgood hnodup]

/-- C5 witness: the amended round trip at a concrete two-property map (one
scalar, one list) over a concrete body. -/
theorem c5_witness :
    (parseFrontmatter (formatHeader
        [("alpha", YamlVal.str "one"), ("tags", YamlVal.list ["x", "y"])] ++
      "## Notes\nhi")).properties =
      [("alpha", YamlVal.str "one"), ("tags", YamlVal.list ["x", "y"])] :=
  c5_amended [("alpha", YamlVal.str "one"), ("tags", YamlVal.list ["x", "y"])]
    "## Notes\nhi" (by decide) (by decide)

/-! ## C7: parseFrontmatter degradation -/

/-- C7, counterexample: a malformed but properly delimited header (garbage
between the two marker lines) yields a body offset PAST the closing marker,
not 0 as the claim states for malformed headers. -/
theorem c7_counterexample :
    (parseFrontmatter "---\n???\n---\nbody").properties = [] ∧
    (parseFrontmatter "---\n???\n---\nbody").bodyStart ≠ 0 := by decide

/-- C7, amended: parseFrontmatter is a total function (it never raises).  A
document with no header (text not beginning with the marker) or with an
unterminated header (no closing marker from index 3 on) yields the empty
property map and body offset 0, the whole document treated as body.  A
delimited but malformed header instead yields a body offset just past the
closing marker, unparseable lines being ignored. -/
theorem c7_amended :
    (∀ s : String, startsWithL s.data ['-', '-', '-'] = false →
      parseFrontmatter s = ⟨[], 0⟩) ∧
    (∀ s : String, indexOfFrom s.data ['\n', '-', '-', '-'] 3 = none →
      parseFrontmatter s = ⟨[], 0⟩) ∧
    (∀ (s : String) (i : Nat), startsWithL s.data ['-', '-', '-'] = true →
      indexOfFrom s.data ['\n', '-', '-', '-'] 3 = some i →
      (parseFrontmatter s).bodyStart = i + 4) := by
  refine ⟨fun s h => ?_, fun s h => ?_, fun s i h1 h2 => ?_⟩
  · unfold parseFrontmatter
    simp [h]
  · unfold parseFrontmatter
    by_cases hs : startsWithL s.data ['-', '-', '-']
    · simp [hs, h]
    · simp [hs]
  · unfold parseFrontmatter
    simp [h1, h2]

/-- C7 witness: the amended theorem applied at concrete inputs of all three
kinds. -/
theorem c7_witness :
    parseFrontmatter "plain body" = ⟨[], 0⟩ ∧
    parseFrontmatter "---\nunterminated: x" = ⟨[], 0⟩ ∧
    (parseFrontmatter "---\nx\n---\n").bodyStart = 5 + 4 :=
  ⟨c7_amended.1 "plain body" (by decide),
   c7_amended.2.1 "---\nunterminated: x" (by decide),
   c7_amended.2.2 "---\nx\n---\n" 5 (by decide) (by decide)⟩

/-! ## C3: name-collision skip -/

/-- C3: when the identifier misses the byGuid index, the sanitized display
name hits an existing document whose header carries a different non-empty
identifier `A`, the record is skipped: no filesystem effect at all, the
skipped counter is incremented by one, and the recorded reason cites `A`. -/
theorem c3_collision_skip (event : FMODEvent) (outputPath : String)
    (notesByGuid notesByName : List (String × NoteRef)) (vaultPaths : List String)
    (exportedAt projectName : String) (stats : SyncStats) (skipped : List SkipReason)
    (ref : NoteRef) (A : String)
    (hguid : getAssoc notesByGuid event.guid = none)
    (hname : getAssoc notesByName (sanitizeFilename event.name) = some ref)
    (hA : getAssoc (parseFrontmatter ref.content).properties "guid" = some (.str A))
    (hA1 : A ≠ "") (hA2 : A ≠ event.guid) :
    processEvent event outputPath notesByGuid notesByName vaultPaths
        exportedAt projectName stats skipped =
      ⟨[], { stats with skipped := stats.skipped + 1 },
       skipped ++ [⟨event.name,
         "Name collision: existing note has different GUID (" ++ A ++ ")"⟩]⟩ := by
  simp only [processEvent, hguid, hname, hA]
  simp [truthyVal, hA1, jsToString]
  intro h
  exact absurd h hA2

/-- C3 witness: a record with identifier `b` whose name collides with a
document claimed by identifier `a`. -/
theorem c3_witness :
    processEvent ⟨"E", "b", "", "", [], "", "", "", "", [], []⟩ "Events"
        [] [("E", ⟨"Events/E.md", "---\nguid: a\n---\nkeep"⟩)] ["Events/E.md"]
        "t" "P" ⟨0, 0, 0, 0, 0⟩ [] =
      ⟨[], { created := 0, updated := 0, moved := 0, skipped := 0 + 1, errors := 0 },
       [⟨"E", "Name collision: existing note has different GUID (a)"⟩]⟩ :=
  c3_collision_skip ⟨"E", "b", "", "", [], "", "", "", "", [], []⟩ "Events"
    [] [("E", ⟨"Events/E.md", "---\nguid: a\n---\nkeep"⟩)] ["Events/E.md"]
    "t" "P" ⟨0, 0, 0, 0, 0⟩ [] ⟨"Events/E.md", "---\nguid: a\n---\nkeep"⟩ "a"
    (by decide) (by decide) (by decide) (by decide) (by decide)

/-! ## C2: order of effects within a Move -/

/-- C2, counterexample: the run reconciles the record as a Move
(`moved = 1`), yet the merged text is NOT written to the target path before
the old document is removed — the delete comes first in the trace. -/
theorem c2_counterexample :
    c2Run.stats.moved = 1 ∧
    writeBeforeRemove c2Run.ops "Events/Sub/E.md" "Events/Old.md" = false := by decide

/-- C2, amended: for every record reconciled as a Move (by identifier match,
or by claiming an unclaimed name match, with the current path differing from
the target), the document at the old path is removed FIRST and the merged
text is then created at the target path — so there is an intermediate point
of the move at which zero copies of the content exist. -/
theorem c2_amended :
    (∀ (event : FMODEvent) (outputPath : String)
        (notesByGuid notesByName : List (String × NoteRef)) (vaultPaths : List String)
        (exportedAt projectName : String) (stats : SyncStats) (skipped : List SkipReason)
        (ref : NoteRef),
      getAssoc notesByGuid event.guid = some ref →
      ref.path ≠ targetPathOf event outputPath → ref.path ≠ "" →
      vaultPaths.contains ref.path = true →
      processEvent event outputPath notesByGuid notesByName vaultPaths
          exportedAt projectName stats skipped =
        ⟨[FsOp.delete ref.path,
          FsOp.create (targetPathOf event outputPath)
            (generateMarkdown event (some ref.content) exportedAt projectName)],
         { stats with moved := stats.moved + 1 }, skipped⟩) ∧
    (∀ (event : FMODEvent) (outputPath : String)
        (notesByGuid notesByName : List (String × NoteRef)) (vaultPaths : List String)
        (exportedAt projectName : String) (stats : SyncStats) (skipped : List SkipReason)
        (ref : NoteRef),
      getAssoc notesByGuid event.guid = none →
      getAssoc notesByName (sanitizeFilename event.name) = some ref →
      truthyVal (getAssoc (parseFrontmatter ref.content).properties "guid") = false →
      ref.path ≠ targetPathOf event outputPath → ref.path ≠ "" →
      vaultPaths.contains ref.path = true →
      processEvent event outputPath notesByGuid notesByName vaultPaths
          exportedAt projectName stats skipped =
        ⟨[FsOp.delete ref.path,
          FsOp.create (targetPathOf event outputPath)
            (generateMarkdown event (some ref.content) exportedAt projectName)],
         { stats with moved := stats.moved + 1 }, skipped⟩) := by
  constructor
  · intro event outputPath notesByGuid notesByName vaultPaths eA pN stats skipped ref
      h1 h2 h3 h4
    simp only [processEvent, h1, writePhase]
    have h4m : ref.path ∈ vaultPaths := by simpa using h4
    simp [h2, h3, h4m]
  · intro event outputPath notesByGuid notesByName vaultPaths eA pN stats skipped ref
      h1 h2 h3 h4 h5 h6
    simp only [processEvent, h1, h2, writePhase]
    have h6m : ref.path ∈ vaultPaths := by simpa using h6
    simp [h3, h4, h5, h6m]

/-- C2 witness: the amended theorem applied to the concrete move scenario. -/
theorem c2_amended_witness :
    processEvent c2Event "Events" [("g1", ⟨"Events/Old.md", c2Doc⟩)] []
        ["Events/Old.md"] "t" "P" ⟨0, 0, 0, 0, 0⟩ [] =
      ⟨[FsOp.delete "Events/Old.md",
        FsOp.create (targetPathOf c2Event "Events")
          (generateMarkdown c2Event (some c2Doc) "t" "P")],
       { created := 0, updated := 0, moved := 0 + 1, skipped := 0, errors := 0 }, []⟩ :=
  c2_amended.1 c2Event "Events" [("g1", ⟨"Events/Old.md", c2Doc⟩)] []
    ["Events/Old.md"] "t" "P" ⟨0, 0, 0, 0, 0⟩ [] ⟨"Events/Old.md", c2Doc⟩
    (by decide) (by decide) (by decide) (by decide)

/-! ## C1: identity stability across a rename -/

/-- C1, evaluation at the failing input: the previously created document
carries identifier `g1` under the `guid` header key, yet the byGuid index —
built from the `fmod_guid` key — is empty, so the renamed record is
reconciled as a Create at the new path with no delete of the old document:
the old file is left orphaned instead of being moved. -/
theorem c1_code_bug :
    getAssoc (parseFrontmatter c1PrevDoc).properties "guid" = some (.str "g1") ∧
    c1Idx.1 = [] ∧
    c1Res.stats.moved = 0 ∧ c1Res.stats.created = 1 ∧
    c1Res.ops = [FsOp.create "Events/E_v2.md" (generateMarkdown c1Renamed none "t" "P")] := by
  decide

/-! ## C6: idempotence of a repeated run -/

/-- C6, evaluation at the failing input: the second run performs an Update
(`updated = 1`, not zero), and its written text is NOT byte-identical to the
first run's output — the user-authored section present after run one is gone
after run two (the name-matched, same-guid branch passes no existing content
into the generator, and the byGuid index never matches because it is keyed
on `fmod_guid` while generated headers carry `guid`). -/
theorem c6_code_bug :
    c6Run2.stats.updated = 1 ∧ c6Run2.stats.created = 0 ∧ c6Run2.stats.moved = 0 ∧
    (getAssoc c6Run1.vault "Events/E.md").map
      (fun t => containsSubstr t "## Design\nkeep") = some true ∧
    (getAssoc c6Run2.vault "Events/E.md").map
      (fun t => containsSubstr t "## Design\nkeep") = some false ∧
    c6Run1.ops ≠ c6Run2.ops := by decide

end FmodSync
